import Mathlib

/-!
Shallow embedding of the MFCC feature-extraction pipeline in `phd/mfcc.py`
(framing, overlap-add reconstruction, spectral estimation, Mel filterbank
construction, cepstral transform), together with theorems checking the
documented properties of that code.

Audio signals are modelled as lists of scalars and matrices as lists of rows.
The framing and overlap-add code is stated over an arbitrary linear ordered
field so that it can be exercised both on exact rational inputs and on the
real numbers used by the rest of the pipeline.
-/

namespace Phd

section Framing

variable {K : Type*} [LinearOrderedField K]

/-- Number of frames computed by `framesig` in `phd/mfcc.py`: one frame if
the signal fits in a single frame, otherwise `1 + ceil((slen - frame_len) /
frame_step)` (the code computes the ceiling in floating point; here it is
taken over the exact rationals). -/
def numframes (slen frame_len frame_step : ℕ) : ℕ :=
  if slen ≤ frame_len then 1
  else 1 + (⌈((slen : ℚ) - frame_len) / frame_step⌉).toNat

/-- Length of the zero-padded signal built by `framesig`:
`(numframes - 1) * frame_step + frame_len`. -/
def padlen (slen frame_len frame_step : ℕ) : ℕ :=
  (numframes slen frame_len frame_step - 1) * frame_step + frame_len

/-- `framesig` from `phd/mfcc.py`: splits `sig` into `numframes` overlapping
frames of `frame_len` samples, one starting every `frame_step` samples,
reading the signal zero-padded on the right (`List.getD _ _ 0`), and
multiplies each frame elementwise by the analysis window `win` (the code's
`winfunc(frame_len)`; the default window is rectangular, `fun _ => 1`).
`frame_len` and `frame_step` are the already-rounded integer sample counts
(`int(round(...))` in the code). -/
def framesig (sig : List K) (frame_len frame_step : ℕ) (win : ℕ → K) : List (List K) :=
  (List.range (numframes sig.length frame_len frame_step)).map fun i =>
    (List.range frame_len).map fun j => sig.getD (i * frame_step + j) 0 * win j

/-- The small bias `1e-15` that `deframesig` adds to every accumulated window
weight so that the overlap normalisation never divides by an exact zero. -/
def deframeEps : K := 1 / 10 ^ 15

/-- `deframesig` from `phd/mfcc.py`: overlap-add reconstruction.  Returns
`none` when some frame does not have `frame_len` samples (the code's
`assert frames.shape[1] == frame_len`).  Otherwise, for each output sample
`t`, every frame `i` adds `frames[i][t - i*frame_step]` into a signal buffer
and `win (t - i*frame_step) + 1e-15` into a window-weight buffer (written
below as sums over the frame/sample index grid, mirroring the loop over
`indices`); the buffers are divided pointwise and the result is cut to
`siglen` samples (the buffers themselves hold `padlen` samples). -/
def deframesig (frames : List (List K)) (frame_len frame_step siglen : ℕ)
    (win : ℕ → K) : Option (List K) :=
  if frames.all fun f => f.length == frame_len then
    some ((List.range (min siglen ((frames.length - 1) * frame_step + frame_len))).map fun t =>
      (∑ i ∈ Finset.range frames.length, ∑ j ∈ Finset.range frame_len,
          if i * frame_step + j = t then (frames.getD i []).getD j 0 else 0) /
      (∑ i ∈ Finset.range frames.length, ∑ j ∈ Finset.range frame_len,
          if i * frame_step + j = t then win j + deframeEps else 0))
  else none

/-- Sum of the window weights of all frames that cover output sample `t`
(the quantity the spec calls the per-sample overlap sum). -/
def overlapSum (win : ℕ → K) (frame_len frame_step n t : ℕ) : K :=
  ∑ i ∈ Finset.range n,
    if i * frame_step ≤ t ∧ t < i * frame_step + frame_len then win (t - i * frame_step) else 0

/-- Number of frames that cover output sample `t`. -/
def overlapCount (frame_len frame_step n t : ℕ) : ℕ :=
  ((Finset.range n).filter fun i =>
    i * frame_step ≤ t ∧ t < i * frame_step + frame_len).card

/-- `preemphasis` from `phd/mfcc.py`: `out[0] = s[0]`,
`out[i] = s[i] - coeff * s[i-1]` for `i ≥ 1`. -/
def preemphasis (signal : List K) (coeff : K) : List K :=
  match signal with
  | [] => []
  | s0 :: rest => s0 :: List.zipWith (fun cur prev => cur - coeff * prev) rest signal

end Framing

section SpectralDefs

/-- Bin `k` of the real FFT of a frame, zero-padded (or truncated) to `N`
samples, as computed by `np.fft.rfft(frames, N)` in `magspec`:
`X[k] = sum_n x[n] * exp(-2*pi*I*k*n/N)`. -/
noncomputable def rfftBin (f : List ℝ) (N k : ℕ) : ℂ :=
  ∑ n ∈ Finset.range N, (f.getD n 0 : ℂ) * Complex.exp (-(2 * Real.pi * k * n / N : ℝ) * Complex.I)

/-- `magspec` from `phd/mfcc.py`: the magnitude of each real-FFT bin of each
frame.  `np.fft.rfft` keeps the `N_FFT/2 + 1` non-redundant bins of the
Hermitian-symmetric spectrum of a real signal, which fixes the column count. -/
noncomputable def magspec (frames : List (List ℝ)) (NFFT : ℕ) : List (List ℝ) :=
  frames.map fun f => (List.range (NFFT / 2 + 1)).map fun k => Complex.abs (rfftBin f NFFT k)

/-- `powspec` from `phd/mfcc.py`: `1/N_FFT * magspec**2`. -/
noncomputable def powspec (frames : List (List ℝ)) (NFFT : ℕ) : List (List ℝ) :=
  (magspec frames NFFT).map (List.map fun v => 1 / (NFFT : ℝ) * v ^ 2)

end SpectralDefs

section FilterbankDefs

/-- Machine epsilon for IEEE double precision, `np.finfo(float).eps = 2^-52`. -/
noncomputable def machineEps : ℝ := (2 : ℝ) ^ (-52 : ℤ)

/-- The flooring `a[a == 0] = np.finfo(float).eps` that `fbank` applies
elementwise to the filterbank energies and the frame energies. -/
noncomputable def floorEps (x : ℝ) : ℝ := if x = 0 then machineEps else x

/-- Modelled from the spec: `hz2mel` lives in the repository's `phd/utils.py`,
which is not among the provided sources.  Spec 4.4: the Mel scale is
`hz_to_mel(f) = 2595 * log10(1 + f/700)`. -/
noncomputable def hz2mel (f : ℝ) : ℝ := 2595 * Real.logb 10 (1 + f / 700)

/-- Modelled from the spec: `mel2hz` lives in the repository's `phd/utils.py`,
which is not among the provided sources.  Spec 4.4: the inverse of `hz2mel`
is the corresponding exponential map, `mel2hz(m) = 700 * (10^(m/2595) - 1)`. -/
noncomputable def mel2hz (m : ℝ) : ℝ := 700 * ((10 : ℝ) ^ (m / 2595) - 1)

/-- Point `k` of `np.linspace(lowmel, highmel, n_filters + 2)` used by
`get_filterbanks`. -/
noncomputable def melpoint (n_filters : ℕ) (lowmel highmel : ℝ) (k : ℕ) : ℝ :=
  lowmel + k * (highmel - lowmel) / (n_filters + 1)

/-- Control bin `k` of the Mel filterbank in `get_filterbanks`:
`fbin = np.floor((n_fft + 1) * mel2hz(melpoints) / fs)`. -/
noncomputable def fbin (n_filters n_fft fs : ℕ) (minfreq maxfreq : ℝ) (k : ℕ) : ℤ :=
  ⌊((n_fft : ℝ) + 1) * mel2hz (melpoint n_filters (hz2mel minfreq) (hz2mel maxfreq) k) / fs⌋

/-- Weight that the two assignment loops of `get_filterbanks` leave at column
`i` of a filter row with control bins `(b0, b1, b2)`: the first loop covers
`i` in `[b0, b1)` with `(i - b0)/(b1 - b0)`, the second covers `i` in
`[b1, b2)` with `(b2 - i)/(b2 - b1)`, and all other entries keep the initial
value `0` of `np.zeros`. -/
noncomputable def filtWeight (b0 b1 b2 : ℤ) (i : ℕ) : ℝ :=
  if b0 ≤ (i : ℤ) ∧ (i : ℤ) < b1 then (((i : ℤ) - b0 : ℤ) : ℝ) / ((b1 - b0 : ℤ) : ℝ)
  else if b1 ≤ (i : ℤ) ∧ (i : ℤ) < b2 then ((b2 - (i : ℤ) : ℤ) : ℝ) / ((b2 - b1 : ℤ) : ℝ)
  else 0

/-- The `(n_filters, n_fft/2 + 1)` filterbank matrix built by
`get_filterbanks` (row `j` uses control bins `fbin j`, `fbin (j+1)`,
`fbin (j+2)`). -/
noncomputable def filterbankMatrix (n_filters n_fft fs : ℕ) (minfreq maxfreq : ℝ) :
    List (List ℝ) :=
  (List.range n_filters).map fun j =>
    (List.range (n_fft / 2 + 1)).map fun i =>
      filtWeight (fbin n_filters n_fft fs minfreq maxfreq j)
        (fbin n_filters n_fft fs minfreq maxfreq (j + 1))
        (fbin n_filters n_fft fs minfreq maxfreq (j + 2)) i

/-- `get_filterbanks` from `phd/mfcc.py`.  A `maxfreq` of `none` stands for
the Python default `None` and resolves to `fs // 2`; the code's
`assert maxfreq <= fs // 2` (the Nyquist check) is modelled by returning
`none` when it fails. -/
noncomputable def get_filterbanks (n_filters n_fft fs : ℕ) (minfreq : ℝ)
    (maxfreq : Option ℝ) : Option (List (List ℝ)) :=
  let mf := maxfreq.getD ((fs / 2 : ℕ) : ℝ)
  if mf ≤ ((fs / 2 : ℕ) : ℝ) then
    some (filterbankMatrix n_filters n_fft fs minfreq mf)
  else none

end FilterbankDefs

section PipelineDefs

/-- Dot product of a power-spectrum row with a filter row, one entry of
`np.dot(pspec, fb.T)`. -/
def dotL (a b : List ℝ) : ℝ := (List.zipWith (· * ·) a b).sum

/-- The frame matrix that `fbank` builds: pre-emphasis followed by framing
with the rounded window length `window_dt*fs` and step `dt*fs` and the
default rectangular window. -/
noncomputable def fbankFrames (audio : List ℝ) (fs : ℕ) (window_dt dt : ℚ)
    (preemph : ℝ) : List (List ℝ) :=
  framesig (preemphasis audio preemph)
    (round (window_dt * (fs : ℚ))).toNat (round (dt * (fs : ℚ))).toNat fun _ => 1

/-- The frame-energy vector of `fbank`: `energy = np.sum(pspec, axis=1)`,
with exact zeros floored to machine epsilon. -/
noncomputable def frameEnergies (audio : List ℝ) (fs : ℕ) (window_dt dt : ℚ)
    (n_fft : ℕ) (preemph : ℝ) : List ℝ :=
  (powspec (fbankFrames audio fs window_dt dt preemph) n_fft).map fun row =>
    floorEps row.sum

/-- `fbank` from `phd/mfcc.py`: filterbank energies (power spectrum projected
through the Mel filterbank, exact zeros floored to machine epsilon) together
with the per-frame total energies.  `none` when the Nyquist check of
`get_filterbanks` fails. -/
noncomputable def fbank (audio : List ℝ) (fs : ℕ) (window_dt dt : ℚ)
    (n_filters n_fft : ℕ) (minfreq : ℝ) (maxfreq : Option ℝ) (preemph : ℝ) :
    Option (List (List ℝ) × List ℝ) :=
  (get_filterbanks n_filters n_fft fs minfreq maxfreq).map fun fb =>
    ((powspec (fbankFrames audio fs window_dt dt preemph) n_fft).map fun prow =>
        fb.map fun filt => floorEps (dotL prow filt),
      frameEnergies audio fs window_dt dt n_fft preemph)

/-- `logfbank` from `phd/mfcc.py`: the natural log of the filterbank
energies. -/
noncomputable def logfbank (audio : List ℝ) (fs : ℕ) (window_dt dt : ℚ)
    (n_filters n_fft : ℕ) (minfreq : ℝ) (maxfreq : Option ℝ) (preemph : ℝ) :
    Option (List (List ℝ)) :=
  (fbank audio fs window_dt dt n_filters n_fft minfreq maxfreq preemph).map fun fe =>
    fe.1.map (List.map Real.log)

/-- `scipy.fftpack.dct(x, type=2, axis=1, norm='ortho')` applied to one row:
`y[k] = f(k) * 2 * sum_n x[n] * cos(pi * k * (2n + 1) / (2N))` with the
orthonormal scaling `f(0) = sqrt(1/(4N))` and `f(k) = sqrt(1/(2N))` for
`k > 0`. -/
noncomputable def dctOrtho (x : List ℝ) : List ℝ :=
  (List.range x.length).map fun k : ℕ =>
    (if k = 0 then Real.sqrt (1 / (4 * x.length)) else Real.sqrt (1 / (2 * x.length))) * 2 *
      ∑ n ∈ Finset.range x.length,
        x.getD n 0 * Real.cos (Real.pi * (k : ℝ) * (2 * n + 1) / (2 * x.length))

/-- `lifter` from `phd/mfcc.py`: multiplies cepstral coefficient `n` by
`1 + (L/2) * sin(pi * n / L)`; `L ≤ 0` does nothing. -/
noncomputable def lifter (cepstra : List (List ℝ)) (L : ℝ) : List (List ℝ) :=
  if L ≤ 0 then cepstra
  else cepstra.map fun row =>
    (List.range row.length).map fun n : ℕ =>
      (1 + L / 2 * Real.sin (Real.pi * (n : ℝ) / L)) * row.getD n 0

/-- Modelled from the spec: `derivative` lives in the repository's
`phd/utils.py`, which is not among the provided sources.  Spec 4.7: given a
feature matrix and a spread `k ≥ 1`, it produces a same-shaped matrix of
local slope estimates from a symmetric finite difference over neighboring
frames, boundary frames using the available shorter window (realised here by
clamping the neighbor indices to the matrix). -/
noncomputable def derivative (feat : List (List ℝ)) (spread : ℕ) : List (List ℝ) :=
  (List.range feat.length).map fun t =>
    (List.range (feat.getD t []).length).map fun c =>
      ((feat.getD (min (t + spread) (feat.length - 1)) []).getD c 0
          - (feat.getD (t - spread) []).getD c 0) / (2 * spread)

/-- The derivative blocks appended by `mfcc`: block `m` is the `(m+1)`-fold
iterated derivative of the cepstral block (`target = derivs[-1]` chaining in
the code). -/
noncomputable def derivBlocks (feat : List (List ℝ)) (deriv_spread n_derivatives : ℕ) :
    List (List (List ℝ)) :=
  (List.range n_derivatives).map fun m => (fun M => derivative M deriv_spread)^[m + 1] feat

/-- `np.hstack`: concatenate a list of equal-height blocks row by row. -/
def hstack {β : Type*} (blocks : List (List (List β))) : List (List β) :=
  match blocks with
  | [] => []
  | b :: bs => bs.foldl (fun acc blk => List.zipWith (· ++ ·) acc blk) b

/-- The cepstral block of `mfcc` before derivative stacking, applied to the
pair `(filterbank energies, frame energies)` returned by `fbank`: elementwise
natural log, orthonormal type-II DCT truncated to the first `n_cepstra`
coefficients, liftering, and — when the `energy` flag is set — replacement of
coefficient 0 of every frame by the log of that frame's energy. -/
noncomputable def mfccWithEnergy (n_cepstra : ℕ) (lift : ℝ) (energy : Bool)
    (fe : List (List ℝ) × List ℝ) : List (List ℝ) :=
  if energy then
    List.zipWith (fun row e => row.set 0 (Real.log e))
      (lifter (fe.1.map fun row => (dctOrtho (row.map Real.log)).take n_cepstra) lift) fe.2
  else lifter (fe.1.map fun row => (dctOrtho (row.map Real.log)).take n_cepstra) lift

/-- The cepstral stage of `mfcc`: the cepstral block with the iterated
derivative blocks stacked column-wise (`np.hstack([feat] + derivs)`). -/
noncomputable def mfccBody (n_cepstra : ℕ) (lift : ℝ) (energy : Bool)
    (n_derivatives deriv_spread : ℕ) (fe : List (List ℝ) × List ℝ) : List (List ℝ) :=
  hstack (mfccWithEnergy n_cepstra lift energy fe ::
    derivBlocks (mfccWithEnergy n_cepstra lift energy fe) deriv_spread n_derivatives)

/-- `mfcc` from `phd/mfcc.py`: `fbank` followed by the cepstral stage. -/
noncomputable def mfcc (audio : List ℝ) (fs : ℕ) (window_dt dt : ℚ)
    (n_cepstra n_filters n_fft : ℕ) (minfreq : ℝ) (maxfreq : Option ℝ)
    (preemph lift : ℝ) (energy : Bool) (n_derivatives deriv_spread : ℕ) :
    Option (List (List ℝ)) :=
  (fbank audio fs window_dt dt n_filters n_fft minfreq maxfreq preemph).map
    (mfccBody n_cepstra lift energy n_derivatives deriv_spread)

end PipelineDefs

section FramingLemmas

variable {K : Type*} [LinearOrderedField K]

theorem numframes_pos (slen frame_len frame_step : ℕ) :
    1 ≤ numframes slen frame_len frame_step := by
  unfold numframes
  split <;> omega

/-- For a positive step, the rational ceiling inside `numframes` agrees with
the natural-number ceiling division `(slen - frame_len + st - 1) / st`. -/
theorem numframes_eq_nat (slen frame_len frame_step : ℕ) (hst : 1 ≤ frame_step) :
    numframes slen frame_len frame_step =
      if slen ≤ frame_len then 1
      else 1 + (slen - frame_len + frame_step - 1) / frame_step := by
  unfold numframes
  split
  · rfl
  · rename_i h
    push_neg at h
    congr 1
    obtain ⟨q, r, hqr, hrlt, hq⟩ :
        ∃ q r, frame_step * q + r = slen - frame_len + frame_step - 1 ∧ r < frame_step ∧
          q = (slen - frame_len + frame_step - 1) / frame_step :=
      ⟨_, _, Nat.div_add_mod _ _, Nat.mod_lt _ (by omega), rfl⟩
    rw [← hq]
    have h1 : slen - frame_len ≤ frame_step * q := by omega
    have h2 : frame_step * q < slen - frame_len + frame_step := by omega
    have hcast : ((slen : ℚ) - frame_len) = ((slen - frame_len : ℕ) : ℚ) := by
      push_cast [Nat.cast_sub h.le]
      ring
    have hstQ : (0 : ℚ) < frame_step := by exact_mod_cast Nat.lt_of_lt_of_le Nat.one_pos hst
    have hceil : ⌈((slen : ℚ) - frame_len) / frame_step⌉ = (q : ℤ) := by
      rw [hcast, Int.ceil_eq_iff]
      have h1Q : ((slen - frame_len : ℕ) : ℚ) ≤ (frame_step : ℚ) * q := by exact_mod_cast h1
      have h2Q : (frame_step : ℚ) * q < ((slen - frame_len : ℕ) : ℚ) + frame_step := by
        exact_mod_cast h2
      constructor
      · push_cast
        rw [lt_div_iff₀ hstQ]
        nlinarith [h2Q]
      · push_cast
        rw [div_le_iff₀ hstQ]
        linarith
    rw [hceil, Int.toNat_natCast]

theorem framesig_length (sig : List K) (frame_len frame_step : ℕ) (win : ℕ → K) :
    (framesig sig frame_len frame_step win).length =
      numframes sig.length frame_len frame_step := by
  simp [framesig]

theorem framesig_mem_length (sig : List K) (frame_len frame_step : ℕ) (win : ℕ → K) :
    ∀ f ∈ framesig sig frame_len frame_step win, f.length = frame_len := by
  intro f hf
  simp only [framesig, List.mem_map, List.mem_range] at hf
  obtain ⟨i, _, rfl⟩ := hf
  simp

theorem framesig_entry (sig : List K) (frame_len frame_step : ℕ) (win : ℕ → K)
    {i j : ℕ} (hi : i < numframes sig.length frame_len frame_step) (hj : j < frame_len) :
    ((framesig sig frame_len frame_step win).getD i []).getD j 0
      = sig.getD (i * frame_step + j) 0 * win j := by
  have hlen : i < (framesig sig frame_len frame_step win).length := by
    rw [framesig_length]; exact hi
  rw [List.getD_eq_getElem _ _ hlen]
  unfold framesig
  simp only [List.getElem_map, List.getElem_range]
  rw [List.getD_eq_getElem _ _ (by simpa using hj)]
  simp

theorem le_padlen (slen frame_len frame_step : ℕ) (hst : 1 ≤ frame_step) :
    slen ≤ padlen slen frame_len frame_step := by
  unfold padlen
  rw [numframes_eq_nat _ _ _ hst]
  split
  · omega
  · rename_i h
    push_neg at h
    obtain ⟨q, r, hqr, hrlt, hq⟩ :
        ∃ q r, frame_step * q + r = slen - frame_len + frame_step - 1 ∧ r < frame_step ∧
          q = (slen - frame_len + frame_step - 1) / frame_step :=
      ⟨_, _, Nat.div_add_mod _ _, Nat.mod_lt _ (by omega), rfl⟩
    rw [← hq]
    have h1 : slen - frame_len ≤ frame_step * q := by omega
    have hsimp : (1 + q - 1) * frame_step = frame_step * q := by
      have hq1 : 1 + q - 1 = q := by omega
      rw [hq1, mul_comm]
    omega

theorem getD_eq_ite (sig : List K) (t : ℕ) :
    sig.getD t 0 = if t < sig.length then sig.getD t 0 else 0 := by
  split
  · rfl
  · exact List.getD_eq_default _ _ (by omega)

/-- Collapsing the inner loop of the overlap-add accumulation: summing
`if a + j = t` over `j < n` picks out `j = t - a` when frame start `a`
covers `t`. -/
theorem sum_if_shift (f : ℕ → K) (a t n : ℕ) :
    (∑ j ∈ Finset.range n, if a + j = t then f j else 0)
      = if a ≤ t ∧ t < a + n then f (t - a) else 0 := by
  by_cases h : a ≤ t ∧ t < a + n
  · rw [if_pos h, Finset.sum_eq_single (t - a)]
    · rw [if_pos (by omega)]
    · intro b hb hbne
      rw [Finset.mem_range] at hb
      exact if_neg (by omega)
    · intro hmem
      exact absurd (Finset.mem_range.mpr (by omega)) hmem
  · rw [if_neg h]
    apply Finset.sum_eq_zero
    intro j hj
    rw [Finset.mem_range] at hj
    exact if_neg (by omega)

/-- The window-weight accumulator of `deframesig` at sample `t` equals the
overlap sum plus one `1e-15` bias per covering frame. -/
theorem deframe_corr_eq (win : ℕ → K) (frame_len frame_step n t : ℕ) :
    (∑ i ∈ Finset.range n, ∑ j ∈ Finset.range frame_len,
        if i * frame_step + j = t then win j + deframeEps else 0)
      = overlapSum win frame_len frame_step n t
        + (overlapCount frame_len frame_step n t : K) * deframeEps := by
  have hstep : ∀ i ∈ Finset.range n,
      (∑ j ∈ Finset.range frame_len,
          if i * frame_step + j = t then win j + deframeEps else 0)
        = (if i * frame_step ≤ t ∧ t < i * frame_step + frame_len
            then win (t - i * frame_step) else 0)
          + (if i * frame_step ≤ t ∧ t < i * frame_step + frame_len
              then deframeEps else 0) := by
    intro i _
    rw [sum_if_shift]
    by_cases h : i * frame_step ≤ t ∧ t < i * frame_step + frame_len
    · rw [if_pos h, if_pos h, if_pos h]
    · rw [if_neg h, if_neg h, if_neg h, add_zero]
  rw [Finset.sum_congr rfl hstep, Finset.sum_add_distrib]
  congr 1
  rw [overlapCount, ← Finset.sum_filter, Finset.sum_const, nsmul_eq_mul]

/-- The signal accumulator of `deframesig` applied to the output of
`framesig` at sample `t < padlen` equals the padded sample at `t` times the
overlap sum. -/
theorem deframe_raw_eq (sig : List K) (frame_len frame_step : ℕ) (win : ℕ → K) (t : ℕ) :
    (∑ i ∈ Finset.range (numframes sig.length frame_len frame_step),
      ∑ j ∈ Finset.range frame_len,
        if i * frame_step + j = t
        then ((framesig sig frame_len frame_step win).getD i []).getD j 0 else 0)
      = sig.getD t 0 *
          overlapSum win frame_len frame_step (numframes sig.length frame_len frame_step) t := by
  unfold overlapSum
  rw [Finset.mul_sum]
  refine Finset.sum_congr rfl fun i hi => ?_
  rw [Finset.mem_range] at hi
  have hinner : (∑ j ∈ Finset.range frame_len,
      if i * frame_step + j = t
      then ((framesig sig frame_len frame_step win).getD i []).getD j 0 else 0)
      = ∑ j ∈ Finset.range frame_len,
          if i * frame_step + j = t then sig.getD t 0 * win j else 0 := by
    refine Finset.sum_congr rfl fun j hj => ?_
    rw [Finset.mem_range] at hj
    by_cases h : i * frame_step + j = t
    · rw [if_pos h, if_pos h, framesig_entry _ _ _ _ hi hj, h]
    · rw [if_neg h, if_neg h]
  rw [hinner, sum_if_shift (fun j => sig.getD t 0 * win j)]
  by_cases h : i * frame_step ≤ t ∧ t < i * frame_step + frame_len
  · rw [if_pos h, if_pos h]
  · rw [if_neg h, if_neg h, mul_zero]

theorem overlapCount_le (frame_len frame_step n t : ℕ) :
    overlapCount frame_len frame_step n t ≤ n :=
  le_trans (Finset.card_filter_le _ _) (le_of_eq (Finset.card_range n))

end FramingLemmas

section ClaimC4

/-- C4: for every signal and every frame geometry whose rounded `frame_len`
and `frame_step` are at least one sample, `framesig` produces exactly one
frame when the signal length is at most `frame_len` and
`1 + ceil((len - frame_len)/frame_step)` frames otherwise; the signal is
read zero-padded on the right to exactly `(numframes-1)*frame_step +
frame_len` samples, every frame has `frame_len` samples, frame `i` holds the
window-weighted padded samples starting at offset `i*frame_step`, and every
signal shorter than one frame length yields exactly one zero-padded frame. -/
theorem framesig_frame_count_and_padding (sig : List ℝ) (frame_len frame_step : ℕ)
    (win : ℕ → ℝ) (hfl : 1 ≤ frame_len) (hst : 1 ≤ frame_step) :
    (framesig sig frame_len frame_step win).length = numframes sig.length frame_len frame_step
    ∧ (sig.length ≤ frame_len → (framesig sig frame_len frame_step win).length = 1)
    ∧ (frame_len < sig.length →
        ((framesig sig frame_len frame_step win).length : ℤ)
          = 1 + ⌈((sig.length : ℚ) - frame_len) / frame_step⌉)
    ∧ (∀ f ∈ framesig sig frame_len frame_step win, f.length = frame_len)
    ∧ sig.length ≤ padlen sig.length frame_len frame_step
    ∧ padlen sig.length frame_len frame_step
        = ((framesig sig frame_len frame_step win).length - 1) * frame_step + frame_len
    ∧ (∀ i < numframes sig.length frame_len frame_step, ∀ j < frame_len,
        ((framesig sig frame_len frame_step win).getD i []).getD j 0
          = (if i * frame_step + j < sig.length
              then sig.getD (i * frame_step + j) 0 else 0) * win j)
    ∧ (sig.length ≤ frame_len →
        framesig sig frame_len frame_step win
          = [(List.range frame_len).map fun j =>
              (if j < sig.length then sig.getD j 0 else 0) * win j]) := by
  refine ⟨framesig_length sig frame_len frame_step win, ?_, ?_,
    framesig_mem_length sig frame_len frame_step win,
    le_padlen sig.length frame_len frame_step hst, ?_, ?_, ?_⟩
  · intro hle
    rw [framesig_length]
    unfold numframes
    rw [if_pos hle]
  · intro hlt
    rw [framesig_length]
    unfold numframes
    rw [if_neg (by omega)]
    have hnn : (0 : ℚ) ≤ ((sig.length : ℚ) - frame_len) / frame_step := by
      apply div_nonneg _ (by positivity)
      have : (frame_len : ℚ) ≤ sig.length := by exact_mod_cast hlt.le
      linarith
    push_cast [Int.toNat_of_nonneg (Int.ceil_nonneg hnn)]
    ring
  · rw [framesig_length]
    rfl
  · intro i hi j hj
    rw [framesig_entry _ _ _ _ hi hj]
    by_cases h : i * frame_step + j < sig.length
    · rw [if_pos h]
    · rw [if_neg h, List.getD_eq_default _ _ (by omega), zero_mul]
  · intro hle
    unfold framesig
    rw [show numframes sig.length frame_len frame_step = 1 from by
      unfold numframes; rw [if_pos hle]]
    simp only [List.range_succ, List.range_zero, List.nil_append, List.map_cons, List.map_nil]
    congr 1
    apply List.map_congr_left
    intro j hj
    simp only [zero_mul, zero_add]
    by_cases h : j < sig.length
    · rw [if_pos h]
    · rw [if_neg h, List.getD_eq_default _ _ (by omega), zero_mul]

/-- Witness for C4 at a concrete signal and geometry. -/
theorem framesig_frame_count_and_padding_witness :
    (1 ≤ 2 ∧ 1 ≤ 1) ∧
      (framesig [(5 : ℝ), 6, 7] 2 1 fun _ => 1).length
        = numframes ([(5 : ℝ), 6, 7] : List ℝ).length 2 1 :=
  ⟨⟨by norm_num, le_refl 1⟩,
    (framesig_frame_count_and_padding [(5 : ℝ), 6, 7] 2 1 (fun _ => 1)
      (by norm_num) (le_refl 1)).1⟩

end ClaimC4

section ClaimC1

/-- C1: `framesig` followed by `deframesig` with the same `frame_len`,
`frame_step` and window, with `siglen` equal to the original signal length,
returns the original signal up to the zero-padded tail within floating-point
tolerance: whenever the per-sample overlap sum of the window is (strictly)
positive, every reconstructed sample differs from the original one by at most
`|sample| * numframes * 1e-15 / overlap_sum`, the deviation introduced by the
`1e-15` bias on the accumulated window weights. -/
theorem framesig_deframesig_reconstruction (sig : List ℝ) (frame_len frame_step : ℕ)
    (win : ℕ → ℝ) (hfl : 1 ≤ frame_len) (hst : 1 ≤ frame_step)
    (hW : ∀ t < sig.length,
      0 < overlapSum win frame_len frame_step (numframes sig.length frame_len frame_step) t) :
    ∃ rec : List ℝ,
      deframesig (framesig sig frame_len frame_step win) frame_len frame_step sig.length win
        = some rec
      ∧ rec.length = sig.length
      ∧ ∀ t < sig.length,
          |rec.getD t 0 - sig.getD t 0|
            ≤ |sig.getD t 0|
                * ((numframes sig.length frame_len frame_step : ℝ) * deframeEps)
                / overlapSum win frame_len frame_step
                    (numframes sig.length frame_len frame_step) t := by
  have hframeslen : (framesig sig frame_len frame_step win).length
      = numframes sig.length frame_len frame_step := framesig_length sig frame_len frame_step win
  have hall : ((framesig sig frame_len frame_step win).all
      fun f => f.length == frame_len) = true := by
    rw [List.all_eq_true]
    intro f hf
    simpa using framesig_mem_length sig frame_len frame_step win f hf
  have hmineq : min sig.length
      ((numframes sig.length frame_len frame_step - 1) * frame_step + frame_len)
      = sig.length := by
    apply min_eq_left
    exact le_padlen sig.length frame_len frame_step hst
  unfold deframesig
  rw [if_pos hall, hframeslen, hmineq]
  refine ⟨_, rfl, by simp, ?_⟩
  intro t ht
  rw [List.getD_eq_getElem _ _ (by simpa using ht)]
  simp only [List.getElem_map, List.getElem_range]
  rw [deframe_raw_eq, deframe_corr_eq]
  have hWpos : 0 < overlapSum win frame_len frame_step
      (numframes sig.length frame_len frame_step) t := hW t ht
  have heps : (0 : ℝ) < deframeEps := by
    unfold deframeEps; positivity
  have hkn : ((overlapCount frame_len frame_step
        (numframes sig.length frame_len frame_step) t : ℝ))
      ≤ (numframes sig.length frame_len frame_step : ℝ) := by
    exact_mod_cast overlapCount_le frame_len frame_step _ t
  have hknn : (0 : ℝ) ≤ (overlapCount frame_len frame_step
      (numframes sig.length frame_len frame_step) t : ℝ) * deframeEps := by positivity
  have hD : 0 < overlapSum win frame_len frame_step
        (numframes sig.length frame_len frame_step) t
      + (overlapCount frame_len frame_step
          (numframes sig.length frame_len frame_step) t : ℝ) * deframeEps := by
    linarith
  have hrw : sig.getD t 0 * overlapSum win frame_len frame_step
        (numframes sig.length frame_len frame_step) t
      / (overlapSum win frame_len frame_step
            (numframes sig.length frame_len frame_step) t
          + (overlapCount frame_len frame_step
              (numframes sig.length frame_len frame_step) t : ℝ) * deframeEps)
      - sig.getD t 0
      = -(sig.getD t 0 * ((overlapCount frame_len frame_step
            (numframes sig.length frame_len frame_step) t : ℝ) * deframeEps))
        / (overlapSum win frame_len frame_step
              (numframes sig.length frame_len frame_step) t
            + (overlapCount frame_len frame_step
                (numframes sig.length frame_len frame_step) t : ℝ) * deframeEps) := by
    field_simp
    ring
  rw [hrw, abs_div, abs_neg, abs_mul, abs_of_pos hD, abs_of_nonneg hknn,
    div_le_div_iff hD hWpos]
  have h1 : |sig.getD t 0| * ((overlapCount frame_len frame_step
        (numframes sig.length frame_len frame_step) t : ℝ) * deframeEps)
      * overlapSum win frame_len frame_step (numframes sig.length frame_len frame_step) t
      ≤ |sig.getD t 0| * ((numframes sig.length frame_len frame_step : ℝ) * deframeEps)
        * overlapSum win frame_len frame_step
            (numframes sig.length frame_len frame_step) t := by
    apply mul_le_mul_of_nonneg_right _ hWpos.le
    exact mul_le_mul_of_nonneg_left (mul_le_mul_of_nonneg_right hkn heps.le) (abs_nonneg _)
  have h2 : (0 : ℝ) ≤ |sig.getD t 0|
      * ((numframes sig.length frame_len frame_step : ℝ) * deframeEps)
      * ((overlapCount frame_len frame_step
          (numframes sig.length frame_len frame_step) t : ℝ) * deframeEps) := by
    apply mul_nonneg (mul_nonneg (abs_nonneg _) _) hknn
    positivity
  nlinarith [h1, h2]

/-- Witness for C1: a three-sample signal framed with length-2 frames at
step 1 under the rectangular window. -/
theorem framesig_deframesig_reconstruction_witness :
    (∀ t < ([(1 : ℝ), 2, 3] : List ℝ).length,
      0 < overlapSum (fun _ => (1 : ℝ)) 2 1 (numframes ([(1 : ℝ), 2, 3] : List ℝ).length 2 1) t)
    ∧ ∃ rec : List ℝ,
        deframesig (framesig [(1 : ℝ), 2, 3] 2 1 fun _ => 1) 2 1
            ([(1 : ℝ), 2, 3] : List ℝ).length (fun _ => 1) = some rec
        ∧ rec.length = ([(1 : ℝ), 2, 3] : List ℝ).length
        ∧ ∀ t < ([(1 : ℝ), 2, 3] : List ℝ).length,
            |rec.getD t 0 - ([(1 : ℝ), 2, 3] : List ℝ).getD t 0|
              ≤ |([(1 : ℝ), 2, 3] : List ℝ).getD t 0|
                  * ((numframes ([(1 : ℝ), 2, 3] : List ℝ).length 2 1 : ℝ) * deframeEps)
                  / overlapSum (fun _ => (1 : ℝ)) 2 1
                      (numframes ([(1 : ℝ), 2, 3] : List ℝ).length 2 1) t := by
  have hpos : ∀ t < ([(1 : ℝ), 2, 3] : List ℝ).length,
      0 < overlapSum (fun _ => (1 : ℝ)) 2 1
        (numframes ([(1 : ℝ), 2, 3] : List ℝ).length 2 1) t := by
    have hnf : numframes ([(1 : ℝ), 2, 3] : List ℝ).length 2 1 = 2 := by
      simp only [List.length_cons, List.length_nil]
      norm_num [numframes]
    rw [hnf]
    intro t ht
    simp only [List.length_cons, List.length_nil] at ht
    interval_cases t
    all_goals
      unfold overlapSum
      rw [Finset.sum_range_succ, Finset.sum_range_succ, Finset.sum_range_zero]
      norm_num
  exact ⟨hpos,
    framesig_deframesig_reconstruction [(1 : ℝ), 2, 3] 2 1 (fun _ => 1)
      (by norm_num) (le_refl 1) hpos⟩

end ClaimC1

section FilterbankLemmas

theorem filtWeight_nonneg (b0 b1 b2 : ℤ) (i : ℕ) : 0 ≤ filtWeight b0 b1 b2 i := by
  unfold filtWeight
  split
  · rename_i h
    have h1 : (0 : ℝ) ≤ (((i : ℤ) - b0 : ℤ) : ℝ) := by exact_mod_cast by omega
    have h2 : (0 : ℝ) < ((b1 - b0 : ℤ) : ℝ) := by exact_mod_cast by omega
    exact div_nonneg h1 h2.le
  · split
    · rename_i h h2
      have ha : (0 : ℝ) ≤ ((b2 - (i : ℤ) : ℤ) : ℝ) := by exact_mod_cast by omega
      have hb : (0 : ℝ) < ((b2 - b1 : ℤ) : ℝ) := by exact_mod_cast by omega
      exact div_nonneg ha hb.le
    · exact le_refl 0

theorem filtWeight_le_one (b0 b1 b2 : ℤ) (i : ℕ) : filtWeight b0 b1 b2 i ≤ 1 := by
  unfold filtWeight
  split
  · rename_i h
    rw [div_le_one (by exact_mod_cast by omega)]
    exact_mod_cast by omega
  · split
    · rename_i h h2
      rw [div_le_one (by exact_mod_cast by omega)]
      exact_mod_cast by omega
    · norm_num

theorem filtWeight_eq_zero_outside (b0 b1 b2 : ℤ) (hb01 : b0 ≤ b1) (hb12 : b1 ≤ b2)
    (i : ℕ) (h : (i : ℤ) < b0 ∨ b2 ≤ (i : ℤ)) : filtWeight b0 b1 b2 i = 0 := by
  unfold filtWeight
  rw [if_neg (by omega), if_neg (by omega)]

theorem filtWeight_rise (b0 b1 b2 : ℤ) (hb01 : b0 < b1) (hb12 : b1 < b2) (i : ℕ)
    (h0 : b0 ≤ (i : ℤ)) (h1 : (i : ℤ) ≤ b1) :
    filtWeight b0 b1 b2 i = (((i : ℤ) - b0 : ℤ) : ℝ) / ((b1 - b0 : ℤ) : ℝ) := by
  unfold filtWeight
  by_cases hlt : (i : ℤ) < b1
  · rw [if_pos ⟨h0, hlt⟩]
  · have hieq : (i : ℤ) = b1 := le_antisymm h1 (not_lt.mp hlt)
    rw [if_neg (by omega), if_pos (by omega), hieq,
      div_self (by exact_mod_cast by omega : ((b2 - b1 : ℤ) : ℝ) ≠ 0),
      div_self (by exact_mod_cast by omega : ((b1 - b0 : ℤ) : ℝ) ≠ 0)]

theorem filtWeight_fall (b0 b1 b2 : ℤ) (i : ℕ)
    (h1 : b1 ≤ (i : ℤ)) (h2 : (i : ℤ) < b2) :
    filtWeight b0 b1 b2 i = ((b2 - (i : ℤ) : ℤ) : ℝ) / ((b2 - b1 : ℤ) : ℝ) := by
  unfold filtWeight
  rw [if_neg (by omega), if_pos ⟨h1, h2⟩]

theorem filterbankMatrix_length (n_filters n_fft fs : ℕ) (minfreq maxfreq : ℝ) :
    (filterbankMatrix n_filters n_fft fs minfreq maxfreq).length = n_filters := by
  simp [filterbankMatrix]

theorem filterbankMatrix_row (n_filters n_fft fs : ℕ) (minfreq maxfreq : ℝ) {j : ℕ}
    (hj : j < n_filters) :
    (filterbankMatrix n_filters n_fft fs minfreq maxfreq).getD j []
      = (List.range (n_fft / 2 + 1)).map fun i =>
          filtWeight (fbin n_filters n_fft fs minfreq maxfreq j)
            (fbin n_filters n_fft fs minfreq maxfreq (j + 1))
            (fbin n_filters n_fft fs minfreq maxfreq (j + 2)) i := by
  unfold filterbankMatrix
  rw [List.getD_eq_getElem _ _ (by simpa using hj)]
  simp

theorem filterbankMatrix_entry (n_filters n_fft fs : ℕ) (minfreq maxfreq : ℝ) {j i : ℕ}
    (hj : j < n_filters) (hi : i < n_fft / 2 + 1) :
    ((filterbankMatrix n_filters n_fft fs minfreq maxfreq).getD j []).getD i 0
      = filtWeight (fbin n_filters n_fft fs minfreq maxfreq j)
          (fbin n_filters n_fft fs minfreq maxfreq (j + 1))
          (fbin n_filters n_fft fs minfreq maxfreq (j + 2)) i := by
  rw [filterbankMatrix_row n_filters n_fft fs minfreq maxfreq hj,
    List.getD_eq_getElem _ _ (by simpa using hi)]
  simp

theorem filterbankMatrix_entry_nonneg (n_filters n_fft fs : ℕ) (minfreq maxfreq : ℝ)
    (j i : ℕ) :
    0 ≤ ((filterbankMatrix n_filters n_fft fs minfreq maxfreq).getD j []).getD i 0 := by
  by_cases hj : j < n_filters
  · by_cases hi : i < n_fft / 2 + 1
    · rw [filterbankMatrix_entry n_filters n_fft fs minfreq maxfreq hj hi]
      exact filtWeight_nonneg _ _ _ i
    · rw [List.getD_eq_default _ _ (by
        rw [filterbankMatrix_row n_filters n_fft fs minfreq maxfreq hj]
        simpa using by omega)]
  · have hrow : (filterbankMatrix n_filters n_fft fs minfreq maxfreq).getD j [] = [] :=
      List.getD_eq_default _ _ (by rw [filterbankMatrix_length]; omega)
    rw [hrow]
    simp

theorem get_filterbanks_accepts (n_filters n_fft fs : ℕ) (minfreq maxfreq : ℝ)
    (hacc : maxfreq ≤ ((fs / 2 : ℕ) : ℝ)) :
    get_filterbanks n_filters n_fft fs minfreq (some maxfreq)
      = some (filterbankMatrix n_filters n_fft fs minfreq maxfreq) := by
  unfold get_filterbanks
  simp only [Option.getD_some]
  rw [if_pos hacc]

/-- Control bins of the all-zero configuration used to exhibit a degenerate
filter: with `minfreq = maxfreq = 0` every Mel point is `0`, so every
control bin is `0`. -/
theorem fbin_zero_config (k : ℕ) : fbin 2 8 16 0 0 k = 0 := by
  have hz : hz2mel 0 = 0 := by
    unfold hz2mel
    norm_num [Real.logb_one]
  have h2hz : mel2hz 0 = 0 := by
    unfold mel2hz
    norm_num [Real.rpow_zero]
  unfold fbin
  rw [show melpoint 2 (hz2mel 0) (hz2mel 0) k = 0 by unfold melpoint; rw [hz]; ring, h2hz]
  norm_num

theorem filterbankMatrix_entry_beyond (n_filters n_fft fs : ℕ) (minfreq maxfreq : ℝ)
    {j i : ℕ} (hj : j < n_filters) (hi : n_fft / 2 + 1 ≤ i) :
    ((filterbankMatrix n_filters n_fft fs minfreq maxfreq).getD j []).getD i 0 = 0 :=
  List.getD_eq_default _ _ (by
    rw [filterbankMatrix_row n_filters n_fft fs minfreq maxfreq hj]
    simpa using hi)

end FilterbankLemmas

section ClaimC6

/-- C6: for every non-degenerate filterbank configuration accepted by
`get_filterbanks` (the Nyquist check passes and the control bins
`b0 < b1 < b2` of filter `j` are strictly increasing), row `j` of the
returned matrix is triangular: its entries vanish at every bin outside the
support `[b0, b2]` (including bin `b2` itself), follow the linear ramp
`(i - b0)/(b1 - b0)` from `0` at bin `b0` up to the maximum weight `1` at
the center bin `b1`, rising monotonically, and follow the linear ramp
`(b2 - i)/(b2 - b1)` from `1` at `b1` back down to `0` at `b2`, falling
monotonically, with every weight between `0` and `1`. -/
theorem filterbank_rows_triangular (n_filters n_fft fs : ℕ) (minfreq maxfreq : ℝ)
    (b0 b1 b2 : ℤ) (j : ℕ)
    (hacc : maxfreq ≤ ((fs / 2 : ℕ) : ℝ)) (hj : j < n_filters)
    (hb0 : b0 = fbin n_filters n_fft fs minfreq maxfreq j)
    (hb1 : b1 = fbin n_filters n_fft fs minfreq maxfreq (j + 1))
    (hb2 : b2 = fbin n_filters n_fft fs minfreq maxfreq (j + 2))
    (hb01 : b0 < b1) (hb12 : b1 < b2) :
    get_filterbanks n_filters n_fft fs minfreq (some maxfreq)
        = some (filterbankMatrix n_filters n_fft fs minfreq maxfreq)
    ∧ ((filterbankMatrix n_filters n_fft fs minfreq maxfreq).getD j []).length = n_fft / 2 + 1
    ∧ (∀ i : ℕ, ((i : ℤ) < b0 ∨ b2 ≤ (i : ℤ)) →
        ((filterbankMatrix n_filters n_fft fs minfreq maxfreq).getD j []).getD i 0 = 0)
    ∧ (∀ i : ℕ, b0 ≤ (i : ℤ) → (i : ℤ) ≤ b1 → i < n_fft / 2 + 1 →
        ((filterbankMatrix n_filters n_fft fs minfreq maxfreq).getD j []).getD i 0
          = (((i : ℤ) - b0 : ℤ) : ℝ) / ((b1 - b0 : ℤ) : ℝ))
    ∧ (∀ i : ℕ, b1 ≤ (i : ℤ) → (i : ℤ) < b2 → i < n_fft / 2 + 1 →
        ((filterbankMatrix n_filters n_fft fs minfreq maxfreq).getD j []).getD i 0
          = ((b2 - (i : ℤ) : ℤ) : ℝ) / ((b2 - b1 : ℤ) : ℝ))
    ∧ (0 ≤ b1 → b1.toNat < n_fft / 2 + 1 →
        ((filterbankMatrix n_filters n_fft fs minfreq maxfreq).getD j []).getD b1.toNat 0 = 1)
    ∧ (∀ i : ℕ, ((filterbankMatrix n_filters n_fft fs minfreq maxfreq).getD j []).getD i 0 ≤ 1)
    ∧ (∀ i : ℕ, 0 ≤ ((filterbankMatrix n_filters n_fft fs minfreq maxfreq).getD j []).getD i 0)
    ∧ (∀ i1 i2 : ℕ, b0 ≤ (i1 : ℤ) → i1 ≤ i2 → (i2 : ℤ) ≤ b1 → i2 < n_fft / 2 + 1 →
        ((filterbankMatrix n_filters n_fft fs minfreq maxfreq).getD j []).getD i1 0
          ≤ ((filterbankMatrix n_filters n_fft fs minfreq maxfreq).getD j []).getD i2 0)
    ∧ (∀ i1 i2 : ℕ, b1 ≤ (i1 : ℤ) → i1 ≤ i2 →
        ((filterbankMatrix n_filters n_fft fs minfreq maxfreq).getD j []).getD i2 0
          ≤ ((filterbankMatrix n_filters n_fft fs minfreq maxfreq).getD j []).getD i1 0) := by
  have hent : ∀ i : ℕ, i < n_fft / 2 + 1 →
      ((filterbankMatrix n_filters n_fft fs minfreq maxfreq).getD j []).getD i 0
        = filtWeight b0 b1 b2 i := by
    intro i hi
    rw [filterbankMatrix_entry n_filters n_fft fs minfreq maxfreq hj hi, ← hb0, ← hb1, ← hb2]
  have hnn : ∀ i : ℕ,
      0 ≤ ((filterbankMatrix n_filters n_fft fs minfreq maxfreq).getD j []).getD i 0 :=
    fun i => filterbankMatrix_entry_nonneg n_filters n_fft fs minfreq maxfreq j i
  refine ⟨get_filterbanks_accepts n_filters n_fft fs minfreq maxfreq hacc, ?_, ?_, ?_, ?_, ?_,
    ?_, hnn, ?_, ?_⟩
  · rw [filterbankMatrix_row n_filters n_fft fs minfreq maxfreq hj]
    simp
  · intro i hout
    by_cases hi : i < n_fft / 2 + 1
    · rw [hent i hi]
      exact filtWeight_eq_zero_outside b0 b1 b2 hb01.le hb12.le i hout
    · exact filterbankMatrix_entry_beyond n_filters n_fft fs minfreq maxfreq hj (by omega)
  · intro i h0 h1 hi
    rw [hent i hi]
    exact filtWeight_rise b0 b1 b2 hb01 hb12 i h0 h1
  · intro i h1 h2 hi
    rw [hent i hi]
    exact filtWeight_fall b0 b1 b2 i h1 h2
  · intro hb1nn hcols
    have hi : ((b1.toNat : ℕ) : ℤ) = b1 := Int.toNat_of_nonneg hb1nn
    rw [hent _ hcols, filtWeight_rise b0 b1 b2 hb01 hb12 _ (by omega) (by omega), hi,
      div_self (by exact_mod_cast by omega : ((b1 - b0 : ℤ) : ℝ) ≠ 0)]
  · intro i
    by_cases hi : i < n_fft / 2 + 1
    · rw [hent i hi]
      exact filtWeight_le_one b0 b1 b2 i
    · rw [filterbankMatrix_entry_beyond n_filters n_fft fs minfreq maxfreq hj (by omega)]
      norm_num
  · intro i1 i2 h1 h12 h2 hcols2
    have hcols1 : i1 < n_fft / 2 + 1 := by omega
    rw [hent i1 hcols1, hent i2 hcols2,
      filtWeight_rise b0 b1 b2 hb01 hb12 i1 h1 (by omega),
      filtWeight_rise b0 b1 b2 hb01 hb12 i2 (by omega) h2]
    exact div_le_div_of_nonneg_right (by exact_mod_cast by omega)
      (by exact_mod_cast by omega)
  · intro i1 i2 h1 h12
    by_cases hcols2 : i2 < n_fft / 2 + 1
    · by_cases hin2 : (i2 : ℤ) < b2
      · have hcols1 : i1 < n_fft / 2 + 1 := by omega
        rw [hent i1 hcols1, hent i2 hcols2,
          filtWeight_fall b0 b1 b2 i1 h1 (by omega),
          filtWeight_fall b0 b1 b2 i2 (by omega) hin2]
        exact div_le_div_of_nonneg_right (by exact_mod_cast by omega)
          (by exact_mod_cast by omega)
      · rw [hent i2 hcols2,
          filtWeight_eq_zero_outside b0 b1 b2 hb01.le hb12.le i2 (Or.inr (by omega))]
        exact hnn i1
    · rw [filterbankMatrix_entry_beyond n_filters n_fft fs minfreq maxfreq hj (by omega)]
      exact hnn i1

/-- Control bins of the configuration with one filter spanning `[0, 5600]` Hz
at `fs = 11200` and `n_fft = 15`: the Mel midpoint maps back to `1400` Hz
(`1 + 5600/700 = 9` and `sqrt 9 = 3`), giving bins `0`, `2`, `8`. -/
theorem fbin_c6_config :
    fbin 1 15 11200 0 5600 0 = 0 ∧ fbin 1 15 11200 0 5600 1 = 2
      ∧ fbin 1 15 11200 0 5600 2 = 8 := by
  have h10 : (0 : ℝ) ≤ 10 := by norm_num
  have hz0 : hz2mel 0 = 0 := by
    unfold hz2mel
    norm_num [Real.logb_one]
  have hzmax : hz2mel 5600 = 2595 * Real.logb 10 9 := by
    unfold hz2mel
    norm_num
  have hnine : (10 : ℝ) ^ Real.logb 10 9 = 9 :=
    Real.rpow_logb (by norm_num) (by norm_num) (by norm_num)
  have hsqrt : (9 : ℝ) ^ ((2 : ℝ))⁻¹ = 3 := by
    rw [show (9 : ℝ) = 3 ^ (2 : ℕ) by norm_num, ← Real.rpow_natCast 3 2,
      ← Real.rpow_mul (by norm_num : (0 : ℝ) ≤ 3),
      show ((2 : ℕ) : ℝ) * ((2 : ℝ))⁻¹ = 1 by norm_num, Real.rpow_one]
  have hm0 : melpoint 1 (hz2mel 0) (hz2mel 5600) 0 = 0 := by
    unfold melpoint
    rw [hz0]
    push_cast
    ring
  have hm1 : melpoint 1 (hz2mel 0) (hz2mel 5600) 1 = 2595 * Real.logb 10 9 / 2 := by
    unfold melpoint
    rw [hz0, hzmax]
    push_cast
    ring
  have hm2 : melpoint 1 (hz2mel 0) (hz2mel 5600) 2 = 2595 * Real.logb 10 9 := by
    unfold melpoint
    rw [hz0, hzmax]
    push_cast
    ring
  have hv0 : mel2hz 0 = 0 := by
    unfold mel2hz
    norm_num [Real.rpow_zero]
  have hv1 : mel2hz (2595 * Real.logb 10 9 / 2) = 1400 := by
    unfold mel2hz
    rw [show 2595 * Real.logb 10 9 / 2 / 2595 = Real.logb 10 9 * ((2 : ℝ))⁻¹ by ring,
      Real.rpow_mul h10, hnine, hsqrt]
    norm_num
  have hv2 : mel2hz (2595 * Real.logb 10 9) = 5600 := by
    unfold mel2hz
    rw [show 2595 * Real.logb 10 9 / 2595 = Real.logb 10 9 by ring, hnine]
    norm_num
  refine ⟨?_, ?_, ?_⟩
  · unfold fbin
    rw [hm0, hv0]
    norm_num
  · unfold fbin
    rw [hm1, hv1,
      show (((15 : ℕ) : ℝ) + 1) * 1400 / ((11200 : ℕ) : ℝ) = ((2 : ℤ) : ℝ) by norm_num,
      Int.floor_intCast]
  · unfold fbin
    rw [hm2, hv2,
      show (((15 : ℕ) : ℝ) + 1) * 5600 / ((11200 : ℕ) : ℝ) = ((8 : ℤ) : ℝ) by norm_num,
      Int.floor_intCast]

/-- Witness for C6: one filter spanning `[0, 5600]` Hz at `fs = 11200` and
`n_fft = 15`, with strictly increasing control bins `0 < 2 < 8`. -/
theorem filterbank_rows_triangular_witness :
    ((5600 : ℝ) ≤ ((11200 / 2 : ℕ) : ℝ) ∧ (0 : ℤ) < 2 ∧ (2 : ℤ) < 8
      ∧ (0 : ℤ) = fbin 1 15 11200 0 5600 0 ∧ (2 : ℤ) = fbin 1 15 11200 0 5600 1
      ∧ (8 : ℤ) = fbin 1 15 11200 0 5600 2)
    ∧ get_filterbanks 1 15 11200 0 (some 5600)
        = some (filterbankMatrix 1 15 11200 0 5600) := by
  obtain ⟨h0, h1, h2⟩ := fbin_c6_config
  exact ⟨⟨by norm_num, by norm_num, by norm_num, h0.symm, h1.symm, h2.symm⟩,
    (filterbank_rows_triangular 1 15 11200 0 5600 0 2 8 0 (by norm_num) (by norm_num)
      h0.symm h1.symm h2.symm (by norm_num) (by norm_num)).1⟩

end ClaimC6

section ClaimC7

/-- C7: requesting a maximal filterbank frequency strictly greater than the
Nyquist frequency `fs/2` is rejected by `get_filterbanks` (the assert in the
code, modelled as the `none` result), so no filter weights are produced; in
particular `maxfreq = fs` is rejected for every positive sample rate. -/
theorem nyquist_violation_rejected (n_filters n_fft fs : ℕ) (minfreq maxfreq : ℝ)
    (h : (fs : ℝ) / 2 < maxfreq) (hfs : 1 ≤ fs) :
    get_filterbanks n_filters n_fft fs minfreq (some maxfreq) = none
    ∧ get_filterbanks n_filters n_fft fs minfreq (some (fs : ℝ)) = none := by
  have hreject : ∀ m : ℝ, (fs : ℝ) / 2 < m →
      get_filterbanks n_filters n_fft fs minfreq (some m) = none := by
    intro m hm
    unfold get_filterbanks
    simp only [Option.getD_some]
    rw [if_neg]
    push_neg
    calc ((fs / 2 : ℕ) : ℝ) ≤ (fs : ℝ) / 2 := Nat.cast_div_le
      _ < m := hm
  refine ⟨hreject maxfreq h, hreject (fs : ℝ) ?_⟩
  have hfsR : (1 : ℝ) ≤ (fs : ℝ) := by exact_mod_cast hfs
  linarith

/-- Witness for C7 at the default configuration with `maxfreq = fs`. -/
theorem nyquist_violation_rejected_witness :
    ((16000 : ℝ) / 2 < 16000 ∧ 1 ≤ 16000)
    ∧ get_filterbanks 26 512 16000 0 (some (16000 : ℝ)) = none :=
  ⟨⟨by norm_num, by norm_num⟩,
    (nyquist_violation_rejected 26 512 16000 0 16000 (by norm_num) (by norm_num)).1⟩

end ClaimC7

section ClaimC8

/-- C8 counterexample: in the configuration `n_filters = 2`, `n_fft = 8`,
`fs = 16`, `minfreq = maxfreq = 0`, all control bins of every filter
coincide (every `fbin` is `0`), yet `get_filterbanks` raises no error: it
returns a filterbank matrix, contradicting the claim that a `DegenerateFilter`
error is raised when consecutive control bins coincide. -/
theorem get_filterbanks_degenerate_no_error :
    fbin 2 8 16 0 0 0 = fbin 2 8 16 0 0 1
    ∧ (get_filterbanks 2 8 16 0 (some 0)).isSome = true := by
  constructor
  · rw [fbin_zero_config, fbin_zero_config]
  · rw [get_filterbanks_accepts 2 8 16 0 0 (by norm_num)]
    rfl

/-- C8 amended: `get_filterbanks` accepts every configuration that passes
the Nyquist check, even when consecutive control bins of a filter coincide —
the assignment loops over the collapsed bin ranges are simply empty, so no
division by zero happens and no error is raised; a filter whose three control
bins all coincide is returned as an all-zero row. -/
theorem get_filterbanks_degenerate_returns_matrix (n_filters n_fft fs : ℕ)
    (minfreq maxfreq : ℝ) (hacc : maxfreq ≤ ((fs / 2 : ℕ) : ℝ)) (j : ℕ) (hj : j < n_filters)
    (hb01 : fbin n_filters n_fft fs minfreq maxfreq j
      = fbin n_filters n_fft fs minfreq maxfreq (j + 1))
    (hb12 : fbin n_filters n_fft fs minfreq maxfreq (j + 1)
      = fbin n_filters n_fft fs minfreq maxfreq (j + 2)) :
    get_filterbanks n_filters n_fft fs minfreq (some maxfreq)
        = some (filterbankMatrix n_filters n_fft fs minfreq maxfreq)
    ∧ ∀ i : ℕ,
        ((filterbankMatrix n_filters n_fft fs minfreq maxfreq).getD j []).getD i 0 = 0 := by
  refine ⟨get_filterbanks_accepts n_filters n_fft fs minfreq maxfreq hacc, ?_⟩
  intro i
  by_cases hi : i < n_fft / 2 + 1
  · rw [filterbankMatrix_entry n_filters n_fft fs minfreq maxfreq hj hi]
    unfold filtWeight
    rw [if_neg (by omega), if_neg (by omega)]
  · exact filterbankMatrix_entry_beyond n_filters n_fft fs minfreq maxfreq hj (by omega)

/-- Witness for the amended C8 at the all-zero-bin configuration. -/
theorem get_filterbanks_degenerate_returns_matrix_witness :
    ((0 : ℝ) ≤ ((16 / 2 : ℕ) : ℝ) ∧ fbin 2 8 16 0 0 0 = fbin 2 8 16 0 0 1
      ∧ fbin 2 8 16 0 0 1 = fbin 2 8 16 0 0 2)
    ∧ get_filterbanks 2 8 16 0 (some 0) = some (filterbankMatrix 2 8 16 0 0) :=
  ⟨⟨by norm_num, by rw [fbin_zero_config, fbin_zero_config],
      by rw [fbin_zero_config, fbin_zero_config]⟩,
    (get_filterbanks_degenerate_returns_matrix 2 8 16 0 0 (by norm_num) 0 (by norm_num)
      (by rw [fbin_zero_config, fbin_zero_config])
      (by rw [fbin_zero_config, fbin_zero_config])).1⟩

end ClaimC8

section ClaimC10

/-- C10: for every frame matrix and FFT size, `magspec` and `powspec` return
one row per frame with exactly `n_fft/2 + 1` columns — the real-FFT bin
count, not `n_fft` columns — and the filterbank matrix has `n_filters` rows
of the same `n_fft/2 + 1` columns, so the product of the power spectrum with
the transposed filterbank in `fbank` is always shape-compatible. -/
theorem spectrum_and_filterbank_column_counts (frames : List (List ℝ))
    (N n_filters n_fft fs : ℕ) (minfreq maxfreq : ℝ) :
    (magspec frames N).length = frames.length
    ∧ (∀ row ∈ magspec frames N, row.length = N / 2 + 1)
    ∧ (powspec frames N).length = frames.length
    ∧ (∀ row ∈ powspec frames N, row.length = N / 2 + 1)
    ∧ (filterbankMatrix n_filters n_fft fs minfreq maxfreq).length = n_filters
    ∧ (∀ row ∈ filterbankMatrix n_filters n_fft fs minfreq maxfreq,
        row.length = n_fft / 2 + 1) := by
  refine ⟨by simp [magspec], ?_, by simp [powspec, magspec], ?_,
    filterbankMatrix_length n_filters n_fft fs minfreq maxfreq, ?_⟩
  · intro row hrow
    simp only [magspec, List.mem_map] at hrow
    obtain ⟨f, _, rfl⟩ := hrow
    simp
  · intro row hrow
    simp only [powspec, magspec, List.map_map, List.mem_map] at hrow
    obtain ⟨f, _, rfl⟩ := hrow
    simp
  · intro row hrow
    simp only [filterbankMatrix, List.mem_map, List.mem_range] at hrow
    obtain ⟨j, _, rfl⟩ := hrow
    simp

end ClaimC10

section PipelineLemmas

theorem preemphasis_length {K : Type*} [LinearOrderedField K] (s : List K) (c : K) :
    (preemphasis s c).length = s.length := by
  cases s with
  | nil => rfl
  | cons a t =>
    simp only [preemphasis, List.length_cons, List.length_zipWith]
    omega

theorem powspec_length (frames : List (List ℝ)) (N : ℕ) :
    (powspec frames N).length = frames.length := by
  simp [powspec, magspec]

theorem fbankFrames_length (audio : List ℝ) (fs : ℕ) (window_dt dt : ℚ) (preemph : ℝ) :
    (fbankFrames audio fs window_dt dt preemph).length
      = numframes audio.length (round (window_dt * (fs : ℚ))).toNat
          (round (dt * (fs : ℚ))).toNat := by
  unfold fbankFrames
  rw [framesig_length, preemphasis_length]

theorem frameEnergies_length (audio : List ℝ) (fs : ℕ) (window_dt dt : ℚ)
    (n_fft : ℕ) (preemph : ℝ) :
    (frameEnergies audio fs window_dt dt n_fft preemph).length
      = numframes audio.length (round (window_dt * (fs : ℚ))).toNat
          (round (dt * (fs : ℚ))).toNat := by
  unfold frameEnergies
  rw [List.length_map, powspec_length, fbankFrames_length]

theorem get_filterbanks_accepts_opt (n_filters n_fft fs : ℕ) (minfreq : ℝ)
    (maxfreq : Option ℝ) (hacc : maxfreq.getD ((fs / 2 : ℕ) : ℝ) ≤ ((fs / 2 : ℕ) : ℝ)) :
    get_filterbanks n_filters n_fft fs minfreq maxfreq
      = some (filterbankMatrix n_filters n_fft fs minfreq
          (maxfreq.getD ((fs / 2 : ℕ) : ℝ))) := by
  unfold get_filterbanks
  rw [if_pos hacc]

theorem fbank_eq (audio : List ℝ) (fs : ℕ) (window_dt dt : ℚ) (n_filters n_fft : ℕ)
    (minfreq : ℝ) (maxfreq : Option ℝ) (preemph : ℝ)
    (hacc : maxfreq.getD ((fs / 2 : ℕ) : ℝ) ≤ ((fs / 2 : ℕ) : ℝ)) :
    fbank audio fs window_dt dt n_filters n_fft minfreq maxfreq preemph
      = some ((powspec (fbankFrames audio fs window_dt dt preemph) n_fft).map fun prow =>
            (filterbankMatrix n_filters n_fft fs minfreq
              (maxfreq.getD ((fs / 2 : ℕ) : ℝ))).map fun filt => floorEps (dotL prow filt),
          frameEnergies audio fs window_dt dt n_fft preemph) := by
  unfold fbank
  rw [get_filterbanks_accepts_opt n_filters n_fft fs minfreq maxfreq hacc]
  rfl

theorem dctOrtho_length (x : List ℝ) : (dctOrtho x).length = x.length := by
  unfold dctOrtho
  rw [List.length_map, List.length_range]

theorem lifter_shape (M : List (List ℝ)) (L : ℝ) (w : ℕ) (hM : ∀ r ∈ M, r.length = w) :
    (lifter M L).length = M.length ∧ ∀ r ∈ lifter M L, r.length = w := by
  unfold lifter
  split
  · exact ⟨rfl, hM⟩
  · refine ⟨by simp, ?_⟩
    intro r hr
    simp only [List.mem_map] at hr
    obtain ⟨r0, hr0, rfl⟩ := hr
    simp [hM r0 hr0]

theorem derivative_shape (M : List (List ℝ)) (k w : ℕ) (hM : ∀ r ∈ M, r.length = w) :
    (derivative M k).length = M.length ∧ ∀ r ∈ derivative M k, r.length = w := by
  refine ⟨by simp [derivative], ?_⟩
  intro r hr
  simp only [derivative, List.mem_map, List.mem_range] at hr
  obtain ⟨t, ht, rfl⟩ := hr
  simp only [List.length_map, List.length_range]
  apply hM
  rw [List.getD_eq_getElem _ _ ht]
  exact List.getElem_mem _

theorem iterate_derivative_shape (M : List (List ℝ)) (k w m : ℕ)
    (hM : ∀ r ∈ M, r.length = w) :
    ((fun X => derivative X k)^[m] M).length = M.length
      ∧ ∀ r ∈ (fun X => derivative X k)^[m] M, r.length = w := by
  induction m with
  | zero => exact ⟨rfl, hM⟩
  | succ n ih =>
    rw [Function.iterate_succ_apply']
    obtain ⟨ih1, ih2⟩ := ih
    obtain ⟨d1, d2⟩ := derivative_shape _ k w ih2
    exact ⟨by rw [d1, ih1], d2⟩

theorem derivBlocks_shape (M : List (List ℝ)) (spread nder : ℕ) (n w : ℕ)
    (hlen : M.length = n) (hM : ∀ r ∈ M, r.length = w) :
    (derivBlocks M spread nder).length = nder
      ∧ ∀ blk ∈ derivBlocks M spread nder, blk.length = n ∧ ∀ r ∈ blk, r.length = w := by
  refine ⟨by simp [derivBlocks], ?_⟩
  intro blk hblk
  simp only [derivBlocks, List.mem_map, List.mem_range] at hblk
  obtain ⟨m, _, rfl⟩ := hblk
  obtain ⟨i1, i2⟩ := iterate_derivative_shape M spread w (m + 1) hM
  exact ⟨by rw [i1, hlen], i2⟩

theorem hstack_fold_shape : ∀ (bs : List (List (List ℝ))) (acc : List (List ℝ)) (n w u : ℕ),
    acc.length = n → (∀ r ∈ acc, r.length = u) →
    (∀ blk ∈ bs, blk.length = n ∧ ∀ r ∈ blk, r.length = w) →
    (bs.foldl (fun a blk => List.zipWith (· ++ ·) a blk) acc).length = n
      ∧ ∀ r ∈ bs.foldl (fun a blk => List.zipWith (· ++ ·) a blk) acc,
          r.length = u + bs.length * w := by
  intro bs
  induction bs with
  | nil =>
    intro acc n w u h1 h2 _
    refine ⟨h1, fun r hr => ?_⟩
    simp only [List.foldl_nil] at hr
    simp [h2 r hr]
  | cons blk bs ih =>
    intro acc n w u h1 h2 hbs
    obtain ⟨hb1, hb2⟩ := hbs blk (List.mem_cons_self _ _)
    have hlen : (List.zipWith (· ++ ·) acc blk).length = n := by
      rw [List.length_zipWith, h1, hb1, min_self]
    have hrows : ∀ r ∈ List.zipWith (· ++ ·) acc blk, r.length = u + w := by
      intro r hr
      rw [List.mem_iff_getElem] at hr
      obtain ⟨i, hig, rfl⟩ := hr
      rw [List.getElem_zipWith, List.length_append]
      have hia : i < acc.length := by
        rw [List.length_zipWith] at hig
        omega
      have hib : i < blk.length := by
        rw [List.length_zipWith] at hig
        omega
      rw [h2 _ (List.getElem_mem hia), hb2 _ (List.getElem_mem hib)]
    obtain ⟨f1, f2⟩ := ih (List.zipWith (· ++ ·) acc blk) n w (u + w) hlen hrows
      (fun b hb => hbs b (List.mem_cons_of_mem _ hb))
    refine ⟨f1, fun r hr => ?_⟩
    have hfr := f2 r hr
    have hmul : (bs.length + 1) * w = bs.length * w + w := by ring
    simp only [List.length_cons]
    omega

theorem hstack_shape (b : List (List ℝ)) (bs : List (List (List ℝ))) (n w : ℕ)
    (hb1 : b.length = n) (hb2 : ∀ r ∈ b, r.length = w)
    (hbs : ∀ blk ∈ bs, blk.length = n ∧ ∀ r ∈ blk, r.length = w) :
    (hstack (b :: bs)).length = n
      ∧ ∀ r ∈ hstack (b :: bs), r.length = (1 + bs.length) * w := by
  unfold hstack
  obtain ⟨f1, f2⟩ := hstack_fold_shape bs b n w w hb1 hb2 hbs
  refine ⟨f1, fun r hr => ?_⟩
  have hfr := f2 r hr
  have hmul : (1 + bs.length) * w = w + bs.length * w := by ring
  omega

theorem hstack_fold_getD : ∀ (bs : List (List (List ℝ))) (acc : List (List ℝ)),
    (∀ blk ∈ bs, blk.length = acc.length) →
    ∀ i, i < acc.length →
    ∃ tail : List ℝ,
      (bs.foldl (fun a blk => List.zipWith (· ++ ·) a blk) acc).getD i []
        = acc.getD i [] ++ tail := by
  intro bs
  induction bs with
  | nil =>
    intro acc _ i hi
    exact ⟨[], by simp⟩
  | cons blk bs ih =>
    intro acc hbs i hi
    have hblk : blk.length = acc.length := hbs blk (List.mem_cons_self _ _)
    have hmix : (List.zipWith (· ++ ·) acc blk).length = acc.length := by
      rw [List.length_zipWith, hblk, min_self]
    obtain ⟨tail, htail⟩ := ih (List.zipWith (· ++ ·) acc blk)
      (fun b hb => by rw [hmix]; exact hbs b (List.mem_cons_of_mem _ hb))
      i (by rw [hmix]; exact hi)
    refine ⟨blk.getD i [] ++ tail, ?_⟩
    simp only [List.foldl_cons]
    rw [htail]
    have hz : (List.zipWith (· ++ ·) acc blk).getD i []
        = acc.getD i [] ++ blk.getD i [] := by
      rw [List.getD_eq_getElem _ _ (by rw [hmix]; exact hi), List.getElem_zipWith,
        List.getD_eq_getElem _ _ hi, List.getD_eq_getElem _ _ (by rw [hblk]; exact hi)]
    rw [hz, List.append_assoc]

theorem getD_set_zero (row : List ℝ) (v : ℝ) (h : 1 ≤ row.length) :
    (row.set 0 v).getD 0 0 = v := by
  cases row with
  | nil => simp at h
  | cons a t => rfl

theorem mfccWithEnergy_shape (n_cepstra : ℕ) (lift : ℝ) (energy : Bool)
    (fe : List (List ℝ) × List ℝ) (n w : ℕ)
    (h1 : fe.1.length = n) (h2 : ∀ r ∈ fe.1, r.length = w) (h3 : fe.2.length = n) :
    (mfccWithEnergy n_cepstra lift energy fe).length = n
      ∧ ∀ r ∈ mfccWithEnergy n_cepstra lift energy fe, r.length = min n_cepstra w := by
  have hfeat2 : ∀ r ∈ fe.1.map fun row => (dctOrtho (row.map Real.log)).take n_cepstra,
      r.length = min n_cepstra w := by
    intro r hr
    simp only [List.mem_map] at hr
    obtain ⟨r0, hr0, rfl⟩ := hr
    rw [List.length_take, dctOrtho_length, List.length_map, h2 r0 hr0]
  obtain ⟨hl1, hl2⟩ := lifter_shape _ lift (min n_cepstra w) hfeat2
  have hl1n : (lifter (fe.1.map fun row => (dctOrtho (row.map Real.log)).take n_cepstra)
      lift).length = n := by
    rw [hl1, List.length_map, h1]
  unfold mfccWithEnergy
  split
  · refine ⟨by rw [List.length_zipWith, hl1n, h3, min_self], ?_⟩
    intro r hr
    rw [List.mem_iff_getElem] at hr
    obtain ⟨i, hig, rfl⟩ := hr
    rw [List.getElem_zipWith, List.length_set]
    exact hl2 _ (List.getElem_mem _)
  · exact ⟨hl1n, hl2⟩

theorem mfccBody_shape (n_cepstra : ℕ) (lift : ℝ) (energy : Bool) (nder spread : ℕ)
    (fe : List (List ℝ) × List ℝ) (n w : ℕ)
    (h1 : fe.1.length = n) (h2 : ∀ r ∈ fe.1, r.length = w) (h3 : fe.2.length = n) :
    (mfccBody n_cepstra lift energy nder spread fe).length = n
      ∧ ∀ r ∈ mfccBody n_cepstra lift energy nder spread fe,
          r.length = min n_cepstra w * (1 + nder) := by
  obtain ⟨hwe1, hwe2⟩ := mfccWithEnergy_shape n_cepstra lift energy fe n w h1 h2 h3
  obtain ⟨hd1, hd2⟩ := derivBlocks_shape (mfccWithEnergy n_cepstra lift energy fe)
    spread nder n (min n_cepstra w) hwe1 hwe2
  unfold mfccBody
  obtain ⟨hs1, hs2⟩ := hstack_shape (mfccWithEnergy n_cepstra lift energy fe)
    (derivBlocks (mfccWithEnergy n_cepstra lift energy fe) spread nder)
    n (min n_cepstra w) hwe1 hwe2 hd2
  refine ⟨hs1, fun r hr => ?_⟩
  rw [hs2 r hr, hd1]
  exact Nat.mul_comm _ _

theorem mfccBody_head (n_cepstra : ℕ) (lift : ℝ) (nder spread : ℕ)
    (fe : List (List ℝ) × List ℝ) (n w : ℕ)
    (h1 : fe.1.length = n) (h2 : ∀ r ∈ fe.1, r.length = w) (h3 : fe.2.length = n)
    (hc : 1 ≤ n_cepstra) (hw : 1 ≤ w) (i : ℕ) (hi : i < n) :
    ((mfccBody n_cepstra lift true nder spread fe).getD i []).getD 0 0
      = Real.log (fe.2.getD i 0) := by
  obtain ⟨hwe1, hwe2⟩ := mfccWithEnergy_shape n_cepstra lift true fe n w h1 h2 h3
  obtain ⟨hd1, hd2⟩ := derivBlocks_shape (mfccWithEnergy n_cepstra lift true fe)
    spread nder n (min n_cepstra w) hwe1 hwe2
  unfold mfccBody hstack
  obtain ⟨tail, htail⟩ := hstack_fold_getD
    (derivBlocks (mfccWithEnergy n_cepstra lift true fe) spread nder)
    (mfccWithEnergy n_cepstra lift true fe)
    (fun blk hblk => by rw [(hd2 blk hblk).1, hwe1]) i (by rw [hwe1]; exact hi)
  rw [htail]
  have hlenrow : ((mfccWithEnergy n_cepstra lift true fe).getD i []).length
      = min n_cepstra w := by
    apply hwe2
    rw [List.getD_eq_getElem _ _ (by rw [hwe1]; exact hi)]
    exact List.getElem_mem _
  rw [List.getD_append _ _ _ _ (by rw [hlenrow]; omega)]
  have hwe : (mfccWithEnergy n_cepstra lift true fe).getD i []
      = ((lifter (fe.1.map fun row => (dctOrtho (row.map Real.log)).take n_cepstra)
            lift).getD i []).set 0
          (Real.log (fe.2.getD i 0)) := by
    unfold mfccWithEnergy
    rw [if_pos rfl]
    have hizip : i < (List.zipWith (fun row e => row.set 0 (Real.log e))
        (lifter (fe.1.map fun row => (dctOrtho (row.map Real.log)).take n_cepstra) lift)
        fe.2).length := by
      rw [show (List.zipWith (fun row e => row.set 0 (Real.log e))
          (lifter (fe.1.map fun row => (dctOrtho (row.map Real.log)).take n_cepstra) lift)
          fe.2).length = n from by
        unfold mfccWithEnergy at hwe1
        rw [if_pos rfl] at hwe1
        exact hwe1]
      exact hi
    rw [List.getD_eq_getElem _ _ hizip, List.getElem_zipWith]
    congr 1
    · rw [List.getD_eq_getElem]
    · rw [List.getD_eq_getElem]
  rw [hwe]
  apply getD_set_zero
  obtain ⟨hl1, hl2⟩ := lifter_shape
    (fe.1.map fun row => (dctOrtho (row.map Real.log)).take n_cepstra) lift
    (min n_cepstra w) (by
      intro r hr
      simp only [List.mem_map] at hr
      obtain ⟨r0, hr0, rfl⟩ := hr
      rw [List.length_take, dctOrtho_length, List.length_map, h2 r0 hr0])
  have hll : (lifter (fe.1.map fun row => (dctOrtho (row.map Real.log)).take n_cepstra)
      lift).length = n := by
    rw [hl1, List.length_map, h1]
  have hmem : (lifter (fe.1.map fun row => (dctOrtho (row.map Real.log)).take n_cepstra)
      lift).getD i [] ∈
      lifter (fe.1.map fun row => (dctOrtho (row.map Real.log)).take n_cepstra) lift := by
    rw [List.getD_eq_getElem _ _ (by rw [hll]; exact hi)]
    exact List.getElem_mem _
  rw [hl2 _ hmem]
  omega

theorem powspec_entry_nonneg (frames : List (List ℝ)) (N : ℕ) :
    ∀ row ∈ powspec frames N, ∀ v ∈ row, 0 ≤ v := by
  intro row hrow v hv
  simp only [powspec, List.mem_map] at hrow
  obtain ⟨mrow, _, rfl⟩ := hrow
  simp only [List.mem_map] at hv
  obtain ⟨m, _, rfl⟩ := hv
  have h1 : (0 : ℝ) ≤ 1 / (N : ℝ) := one_div_nonneg.mpr (Nat.cast_nonneg N)
  exact mul_nonneg h1 (sq_nonneg m)

theorem floorEps_pos (x : ℝ) (hx : 0 ≤ x) : 0 < floorEps x := by
  unfold floorEps
  split
  · unfold machineEps
    positivity
  · rename_i h
    exact lt_of_le_of_ne hx (Ne.symm h)

theorem frameEnergies_pos (audio : List ℝ) (fs : ℕ) (window_dt dt : ℚ)
    (n_fft : ℕ) (preemph : ℝ) :
    ∀ e ∈ frameEnergies audio fs window_dt dt n_fft preemph, 0 < e := by
  intro e he
  unfold frameEnergies at he
  simp only [List.mem_map] at he
  obtain ⟨row, hrow, rfl⟩ := he
  apply floorEps_pos
  apply List.sum_nonneg
  intro v hv
  exact powspec_entry_nonneg _ _ row hrow v hv

theorem dotL_nonneg : ∀ (a b : List ℝ), (∀ x ∈ a, 0 ≤ x) → (∀ y ∈ b, 0 ≤ y) →
    0 ≤ dotL a b := by
  intro a
  induction a with
  | nil =>
    intro b _ _
    simp [dotL]
  | cons x xs ih =>
    intro b ha hb
    cases b with
    | nil => simp [dotL]
    | cons y ys =>
      simp only [dotL, List.zipWith_cons_cons, List.sum_cons]
      have h1 : 0 ≤ x * y :=
        mul_nonneg (ha x (List.mem_cons_self _ _)) (hb y (List.mem_cons_self _ _))
      have h2 : 0 ≤ dotL xs ys :=
        ih ys (fun z hz => ha z (List.mem_cons_of_mem _ hz))
          (fun z hz => hb z (List.mem_cons_of_mem _ hz))
      unfold dotL at h2
      linarith

theorem filterbankMatrix_mem_nonneg (n_filters n_fft fs : ℕ) (minfreq maxfreq : ℝ) :
    ∀ r ∈ filterbankMatrix n_filters n_fft fs minfreq maxfreq, ∀ v ∈ r, 0 ≤ v := by
  intro r hr v hv
  simp only [filterbankMatrix, List.mem_map, List.mem_range] at hr
  obtain ⟨j, _, rfl⟩ := hr
  simp only [List.mem_map, List.mem_range] at hv
  obtain ⟨i, _, rfl⟩ := hv
  exact filtWeight_nonneg _ _ _ i

theorem fbank_feat_pos (audio : List ℝ) (fs : ℕ) (window_dt dt : ℚ)
    (n_filters n_fft : ℕ) (minfreq mf preemph : ℝ) :
    ∀ r ∈ (powspec (fbankFrames audio fs window_dt dt preemph) n_fft).map fun prow =>
        (filterbankMatrix n_filters n_fft fs minfreq mf).map fun filt =>
          floorEps (dotL prow filt),
      ∀ v ∈ r, 0 < v := by
  intro r hr v hv
  simp only [List.mem_map] at hr
  obtain ⟨prow, hprow, rfl⟩ := hr
  simp only [List.mem_map] at hv
  obtain ⟨filt, hfilt, rfl⟩ := hv
  apply floorEps_pos
  exact dotL_nonneg prow filt
    (fun x hx => powspec_entry_nonneg _ _ prow hprow x hx)
    (fun y hy => filterbankMatrix_mem_nonneg n_filters n_fft fs minfreq mf filt hfilt y hy)

theorem fbankFeat_shape (audio : List ℝ) (fs : ℕ) (window_dt dt : ℚ)
    (n_filters n_fft : ℕ) (minfreq mf preemph : ℝ) :
    ((powspec (fbankFrames audio fs window_dt dt preemph) n_fft).map fun prow =>
        (filterbankMatrix n_filters n_fft fs minfreq mf).map fun filt =>
          floorEps (dotL prow filt)).length
      = numframes audio.length (round (window_dt * (fs : ℚ))).toNat
          (round (dt * (fs : ℚ))).toNat
    ∧ ∀ r ∈ (powspec (fbankFrames audio fs window_dt dt preemph) n_fft).map fun prow =>
          (filterbankMatrix n_filters n_fft fs minfreq mf).map fun filt =>
            floorEps (dotL prow filt),
        r.length = n_filters := by
  constructor
  · rw [List.length_map, powspec_length, fbankFrames_length]
  · intro r hr
    simp only [List.mem_map] at hr
    obtain ⟨p, _, rfl⟩ := hr
    rw [List.length_map, filterbankMatrix_length]

/-- Whenever the Nyquist check passes, `mfcc` returns a matrix with one row
per frame and `min n_cepstra n_filters * (1 + n_derivatives)` columns (the
slice `[:, :n_cepstra]` truncates at the `n_filters` DCT coefficients that
exist). -/
theorem mfcc_returns_matrix (audio : List ℝ) (fs : ℕ) (window_dt dt : ℚ)
    (n_cepstra n_filters n_fft : ℕ) (minfreq : ℝ) (maxfreq : Option ℝ)
    (preemph lift : ℝ) (energy : Bool) (n_derivatives deriv_spread : ℕ)
    (hacc : maxfreq.getD ((fs / 2 : ℕ) : ℝ) ≤ ((fs / 2 : ℕ) : ℝ)) :
    ∃ M, mfcc audio fs window_dt dt n_cepstra n_filters n_fft minfreq maxfreq preemph
        lift energy n_derivatives deriv_spread = some M
      ∧ M.length = numframes audio.length (round (window_dt * (fs : ℚ))).toNat
          (round (dt * (fs : ℚ))).toNat
      ∧ ∀ row ∈ M, row.length = min n_cepstra n_filters * (1 + n_derivatives) := by
  have hfb := fbank_eq audio fs window_dt dt n_filters n_fft minfreq maxfreq preemph hacc
  obtain ⟨hf1, hf2⟩ := fbankFeat_shape audio fs window_dt dt n_filters n_fft minfreq
    (maxfreq.getD ((fs / 2 : ℕ) : ℝ)) preemph
  obtain ⟨hb1, hb2⟩ := mfccBody_shape n_cepstra lift energy n_derivatives deriv_spread
    ((powspec (fbankFrames audio fs window_dt dt preemph) n_fft).map fun prow =>
        (filterbankMatrix n_filters n_fft fs minfreq
          (maxfreq.getD ((fs / 2 : ℕ) : ℝ))).map fun filt => floorEps (dotL prow filt),
      frameEnergies audio fs window_dt dt n_fft preemph)
    (numframes audio.length (round (window_dt * (fs : ℚ))).toNat
      (round (dt * (fs : ℚ))).toNat) n_filters
    hf1 hf2 (frameEnergies_length audio fs window_dt dt n_fft preemph)
  exact ⟨_, by unfold mfcc; rw [hfb]; rfl, hb1, hb2⟩

/-- With the energy flag set, entry 0 of every row of the `mfcc` output is
the log of the corresponding floored frame energy. -/
theorem mfcc_head_energy (audio : List ℝ) (fs : ℕ) (window_dt dt : ℚ)
    (n_cepstra n_filters n_fft : ℕ) (minfreq : ℝ) (maxfreq : Option ℝ)
    (preemph lift : ℝ) (n_derivatives deriv_spread : ℕ)
    (hc : 1 ≤ n_cepstra) (hf : 1 ≤ n_filters)
    (hacc : maxfreq.getD ((fs / 2 : ℕ) : ℝ) ≤ ((fs / 2 : ℕ) : ℝ)) :
    ∃ M, mfcc audio fs window_dt dt n_cepstra n_filters n_fft minfreq maxfreq preemph
        lift true n_derivatives deriv_spread = some M
      ∧ M.length = numframes audio.length (round (window_dt * (fs : ℚ))).toNat
          (round (dt * (fs : ℚ))).toNat
      ∧ ∀ i < M.length, (M.getD i []).getD 0 0
          = Real.log ((frameEnergies audio fs window_dt dt n_fft preemph).getD i 0) := by
  have hfb := fbank_eq audio fs window_dt dt n_filters n_fft minfreq maxfreq preemph hacc
  obtain ⟨hf1, hf2⟩ := fbankFeat_shape audio fs window_dt dt n_filters n_fft minfreq
    (maxfreq.getD ((fs / 2 : ℕ) : ℝ)) preemph
  obtain ⟨hb1, hb2⟩ := mfccBody_shape n_cepstra lift true n_derivatives deriv_spread
    ((powspec (fbankFrames audio fs window_dt dt preemph) n_fft).map fun prow =>
        (filterbankMatrix n_filters n_fft fs minfreq
          (maxfreq.getD ((fs / 2 : ℕ) : ℝ))).map fun filt => floorEps (dotL prow filt),
      frameEnergies audio fs window_dt dt n_fft preemph)
    (numframes audio.length (round (window_dt * (fs : ℚ))).toNat
      (round (dt * (fs : ℚ))).toNat) n_filters
    hf1 hf2 (frameEnergies_length audio fs window_dt dt n_fft preemph)
  refine ⟨_, by unfold mfcc; rw [hfb]; rfl, hb1, ?_⟩
  intro i hi
  rw [hb1] at hi
  exact mfccBody_head n_cepstra lift n_derivatives deriv_spread
    ((powspec (fbankFrames audio fs window_dt dt preemph) n_fft).map fun prow =>
        (filterbankMatrix n_filters n_fft fs minfreq
          (maxfreq.getD ((fs / 2 : ℕ) : ℝ))).map fun filt => floorEps (dotL prow filt),
      frameEnergies audio fs window_dt dt n_fft preemph)
    (numframes audio.length (round (window_dt * (fs : ℚ))).toNat
      (round (dt * (fs : ℚ))).toNat) n_filters
    hf1 hf2 (frameEnergies_length audio fs window_dt dt n_fft preemph)
    hc hf i hi

end PipelineLemmas

section ClaimC2

/-- C2: for every signal and every valid parameter combination (at least one
cepstrum requested, no more cepstra than filters, Nyquist check passing),
`mfcc` returns a feature matrix with one row per frame and exactly
`n_cepstra * (1 + n_derivatives)` columns; in particular a 1-second signal
sampled at 16000 Hz processed with the default parameters (25 ms windows,
10 ms steps, `n_cepstra = 13`, `n_derivatives = 0`) yields a feature matrix
with 99 rows and 13 columns. -/
theorem mfcc_feature_matrix_shape :
    (∀ (audio : List ℝ) (fs : ℕ) (window_dt dt : ℚ) (n_cepstra n_filters n_fft : ℕ)
        (minfreq : ℝ) (maxfreq : Option ℝ) (preemph lift : ℝ) (energy : Bool)
        (n_derivatives deriv_spread : ℕ),
      1 ≤ n_cepstra → n_cepstra ≤ n_filters →
      maxfreq.getD ((fs / 2 : ℕ) : ℝ) ≤ ((fs / 2 : ℕ) : ℝ) →
      ∃ M, mfcc audio fs window_dt dt n_cepstra n_filters n_fft minfreq maxfreq preemph
          lift energy n_derivatives deriv_spread = some M
        ∧ M.length = numframes audio.length (round (window_dt * (fs : ℚ))).toNat
            (round (dt * (fs : ℚ))).toNat
        ∧ ∀ row ∈ M, row.length = n_cepstra * (1 + n_derivatives))
    ∧ (∀ audio : List ℝ, audio.length = 16000 →
        ∃ M, mfcc audio 16000 (1 / 40) (1 / 100) 13 26 512 0 none (97 / 100) 22 true 0 2
            = some M
          ∧ M.length = 99 ∧ ∀ row ∈ M, row.length = 13) := by
  have hmain : ∀ (audio : List ℝ) (fs : ℕ) (window_dt dt : ℚ)
      (n_cepstra n_filters n_fft : ℕ) (minfreq : ℝ) (maxfreq : Option ℝ)
      (preemph lift : ℝ) (energy : Bool) (n_derivatives deriv_spread : ℕ),
      1 ≤ n_cepstra → n_cepstra ≤ n_filters →
      maxfreq.getD ((fs / 2 : ℕ) : ℝ) ≤ ((fs / 2 : ℕ) : ℝ) →
      ∃ M, mfcc audio fs window_dt dt n_cepstra n_filters n_fft minfreq maxfreq preemph
          lift energy n_derivatives deriv_spread = some M
        ∧ M.length = numframes audio.length (round (window_dt * (fs : ℚ))).toNat
            (round (dt * (fs : ℚ))).toNat
        ∧ ∀ row ∈ M, row.length = n_cepstra * (1 + n_derivatives) := by
    intro audio fs window_dt dt n_cepstra n_filters n_fft minfreq maxfreq preemph lift
      energy nder spread h1 h2 hacc
    obtain ⟨M, hM, hlen, hw⟩ := mfcc_returns_matrix audio fs window_dt dt n_cepstra
      n_filters n_fft minfreq maxfreq preemph lift energy nder spread hacc
    refine ⟨M, hM, hlen, fun row hrow => ?_⟩
    rw [hw row hrow, min_eq_left h2]
  refine ⟨hmain, ?_⟩
  intro audio haudio
  obtain ⟨M, hM, hlen, hw⟩ := hmain audio 16000 (1 / 40) (1 / 100) 13 26 512 0 none
    (97 / 100) 22 true 0 2 (by norm_num) (by norm_num) (by simp)
  have hFL : ((round ((1 / 40 : ℚ) * ((16000 : ℕ) : ℚ))).toNat) = 400 := by
    norm_num
    rfl
  have hST : ((round ((1 / 100 : ℚ) * ((16000 : ℕ) : ℚ))).toNat) = 160 := by
    norm_num
    rfl
  have hnum : numframes 16000 400 160 = 99 := by
    norm_num [numframes]
    rw [show ((195 : ℚ) / 2) = (195 / 2 : ℚ) by norm_num]
    rw [show (⌈(195 / 2 : ℚ)⌉ : ℤ) = 98 by
      rw [Int.ceil_eq_iff]
      norm_num]
    rfl
  refine ⟨M, hM, ?_, fun row hrow => by rw [hw row hrow]⟩
  rw [hlen, haudio, hFL, hST, hnum]

/-- Witness for C2: the spec's synthetic 1 Hz sine sampled at 16000 Hz for
one second, with the default parameters. -/
theorem mfcc_feature_matrix_shape_witness :
    ((List.range 16000).map fun nn : ℕ => Real.sin (2 * Real.pi * nn / 16000)).length
        = 16000
    ∧ ∃ M, mfcc ((List.range 16000).map fun nn : ℕ => Real.sin (2 * Real.pi * nn / 16000))
        16000 (1 / 40) (1 / 100) 13 26 512 0 none (97 / 100) 22 true 0 2 = some M
      ∧ M.length = 99 ∧ ∀ row ∈ M, row.length = 13 :=
  ⟨by simp, mfcc_feature_matrix_shape.2 _ (by simp)⟩

end ClaimC2

section ClaimC3

/-- C3 counterexample: `mfcc` on a concrete one-sample signal with
`n_cepstra = 27` strictly greater than `n_filters = 26` returns a feature
matrix (the result `isSome`), so no `TooManyCepstra` error is surfaced to the
caller — the code has no such error path. -/
theorem mfcc_no_error_on_excess_cepstra :
    (mfcc [1] 16000 (1 / 40) (1 / 100) 27 26 512 0 none (97 / 100) 22 true 0 2).isSome
      = true := by
  obtain ⟨M, hM, -, -⟩ := mfcc_returns_matrix [1] 16000 (1 / 40) (1 / 100) 27 26 512 0
    none (97 / 100) 22 true 0 2 (by simp)
  rw [hM]
  rfl

/-- C3 (amended): calling `mfcc` with `n_cepstra` at least `n_filters` raises
no error: the slice `[:, :n_cepstra]` of the DCT output silently truncates to
the `n_filters` coefficients that exist, and `mfcc` returns a feature matrix
with `n_filters * (1 + n_derivatives)` columns. -/
theorem mfcc_truncates_excess_cepstra (audio : List ℝ) (fs : ℕ) (window_dt dt : ℚ)
    (n_cepstra n_filters n_fft : ℕ) (minfreq : ℝ) (maxfreq : Option ℝ)
    (preemph lift : ℝ) (energy : Bool) (n_derivatives deriv_spread : ℕ)
    (hcn : n_filters ≤ n_cepstra)
    (hacc : maxfreq.getD ((fs / 2 : ℕ) : ℝ) ≤ ((fs / 2 : ℕ) : ℝ)) :
    ∃ M, mfcc audio fs window_dt dt n_cepstra n_filters n_fft minfreq maxfreq preemph
        lift energy n_derivatives deriv_spread = some M
      ∧ M.length = numframes audio.length (round (window_dt * (fs : ℚ))).toNat
          (round (dt * (fs : ℚ))).toNat
      ∧ ∀ row ∈ M, row.length = n_filters * (1 + n_derivatives) := by
  obtain ⟨M, hM, hlen, hw⟩ := mfcc_returns_matrix audio fs window_dt dt n_cepstra
    n_filters n_fft minfreq maxfreq preemph lift energy n_derivatives deriv_spread hacc
  exact ⟨M, hM, hlen, fun row hrow => by rw [hw row hrow, min_eq_right hcn]⟩

/-- Witness for the amended C3 with `n_cepstra = 27 > 26 = n_filters`. -/
theorem mfcc_truncates_excess_cepstra_witness :
    ((26 : ℕ) ≤ 27
      ∧ (none : Option ℝ).getD ((16000 / 2 : ℕ) : ℝ) ≤ ((16000 / 2 : ℕ) : ℝ))
    ∧ ∃ M, mfcc [(2 : ℝ)] 16000 (1 / 40) (1 / 100) 27 26 512 0 none (97 / 100) 22 true 0 2
        = some M
      ∧ M.length = numframes ([(2 : ℝ)] : List ℝ).length
          (round ((1 / 40 : ℚ) * ((16000 : ℕ) : ℚ))).toNat
          (round ((1 / 100 : ℚ) * ((16000 : ℕ) : ℚ))).toNat
      ∧ ∀ row ∈ M, row.length = 26 * (1 + 0) :=
  ⟨⟨by norm_num, by simp⟩,
    mfcc_truncates_excess_cepstra [(2 : ℝ)] 16000 (1 / 40) (1 / 100) 27 26 512 0 none
      (97 / 100) 22 true 0 2 (by norm_num) (by simp)⟩

end ClaimC3

section ClaimC5

/-- C5: for every signal and every configuration passing the Nyquist check,
with at least one cepstrum and one filter, `mfcc` with the energy flag set
returns a matrix whose column 0 equals, frame by frame, the natural log of
that frame's total energy (with zero frame energy floored to machine epsilon,
so each floored energy is strictly positive) — fully replacing, not
lifter-scaling or adding to, the liftered DCT coefficient 0. -/
theorem mfcc_energy_replaces_coefficient_zero (audio : List ℝ) (fs : ℕ)
    (window_dt dt : ℚ) (n_cepstra n_filters n_fft : ℕ) (minfreq : ℝ)
    (maxfreq : Option ℝ) (preemph lift : ℝ) (n_derivatives deriv_spread : ℕ)
    (hc : 1 ≤ n_cepstra) (hf : 1 ≤ n_filters)
    (hacc : maxfreq.getD ((fs / 2 : ℕ) : ℝ) ≤ ((fs / 2 : ℕ) : ℝ)) :
    ∃ M, mfcc audio fs window_dt dt n_cepstra n_filters n_fft minfreq maxfreq preemph
        lift true n_derivatives deriv_spread = some M
      ∧ (∀ i < M.length, (M.getD i []).getD 0 0
          = Real.log ((frameEnergies audio fs window_dt dt n_fft preemph).getD i 0))
      ∧ ∀ e ∈ frameEnergies audio fs window_dt dt n_fft preemph, 0 < e := by
  obtain ⟨M, hM, hlen, hhead⟩ := mfcc_head_energy audio fs window_dt dt n_cepstra
    n_filters n_fft minfreq maxfreq preemph lift n_derivatives deriv_spread hc hf hacc
  exact ⟨M, hM, hhead, frameEnergies_pos audio fs window_dt dt n_fft preemph⟩

/-- Witness for C5: a concrete two-sample signal with the default
configuration. -/
theorem mfcc_energy_replaces_coefficient_zero_witness :
    ((1 : ℕ) ≤ 13 ∧ (1 : ℕ) ≤ 26
      ∧ (none : Option ℝ).getD ((16000 / 2 : ℕ) : ℝ) ≤ ((16000 / 2 : ℕ) : ℝ))
    ∧ ∃ M, mfcc [(1 : ℝ), 2] 16000 (1 / 40) (1 / 100) 13 26 512 0 none (97 / 100) 22
        true 0 2 = some M
      ∧ (∀ i < M.length, (M.getD i []).getD 0 0
          = Real.log ((frameEnergies [(1 : ℝ), 2] 16000 (1 / 40) (1 / 100) 512
              (97 / 100)).getD i 0))
      ∧ ∀ e ∈ frameEnergies [(1 : ℝ), 2] 16000 (1 / 40) (1 / 100) 512 (97 / 100), 0 < e :=
  ⟨⟨by norm_num, by norm_num, by simp⟩,
    mfcc_energy_replaces_coefficient_zero [(1 : ℝ), 2] 16000 (1 / 40) (1 / 100) 13 26 512
      0 none (97 / 100) 22 0 2 (by norm_num) (by norm_num) (by simp)⟩

end ClaimC5

section ClaimC9

/-- C9: every entry of `powspec` is non-negative; and for every input signal
whose configuration passes the Nyquist check — including the all-zero
signal — `fbank` returns filterbank energies and frame energies that are all
strictly positive (exact zeros are floored to machine epsilon before any
logarithm), so every entry of the matrix returned by `logfbank` is the log of
a strictly positive real and hence finite. -/
theorem powspec_nonneg_and_logfbank_finite :
    (∀ (frames : List (List ℝ)) (N : ℕ), ∀ row ∈ powspec frames N, ∀ v ∈ row, 0 ≤ v)
    ∧ ∀ (audio : List ℝ) (fs : ℕ) (window_dt dt : ℚ) (n_filters n_fft : ℕ)
        (minfreq : ℝ) (maxfreq : Option ℝ) (preemph : ℝ),
        maxfreq.getD ((fs / 2 : ℕ) : ℝ) ≤ ((fs / 2 : ℕ) : ℝ) →
        ∃ feat energyVec,
          fbank audio fs window_dt dt n_filters n_fft minfreq maxfreq preemph
            = some (feat, energyVec)
          ∧ (∀ r ∈ feat, ∀ v ∈ r, 0 < v)
          ∧ (∀ e ∈ energyVec, 0 < e)
          ∧ logfbank audio fs window_dt dt n_filters n_fft minfreq maxfreq preemph
              = some (feat.map (List.map Real.log)) := by
  refine ⟨powspec_entry_nonneg, ?_⟩
  intro audio fs window_dt dt n_filters n_fft minfreq maxfreq preemph hacc
  refine ⟨_, _, fbank_eq audio fs window_dt dt n_filters n_fft minfreq maxfreq preemph hacc,
    fbank_feat_pos audio fs window_dt dt n_filters n_fft minfreq _ preemph,
    frameEnergies_pos audio fs window_dt dt n_fft preemph, ?_⟩
  unfold logfbank
  rw [fbank_eq audio fs window_dt dt n_filters n_fft minfreq maxfreq preemph hacc]
  rfl

/-- Witness for C9: the all-zero three-sample signal with the default
configuration. -/
theorem powspec_nonneg_and_logfbank_finite_witness :
    ((none : Option ℝ).getD ((16000 / 2 : ℕ) : ℝ) ≤ ((16000 / 2 : ℕ) : ℝ))
    ∧ ∃ feat energyVec,
        fbank [0, 0, 0] 16000 (1 / 40) (1 / 100) 26 512 0 none (97 / 100)
          = some (feat, energyVec)
        ∧ (∀ r ∈ feat, ∀ v ∈ r, 0 < v)
        ∧ (∀ e ∈ energyVec, 0 < e)
        ∧ logfbank [0, 0, 0] 16000 (1 / 40) (1 / 100) 26 512 0 none (97 / 100)
            = some (feat.map (List.map Real.log)) :=
  ⟨by simp,
    powspec_nonneg_and_logfbank_finite.2 [0, 0, 0] 16000 (1 / 40) (1 / 100) 26 512 0 none
      (97 / 100) (by simp)⟩

end ClaimC9

end Phd
